import Mathlib

/-!
Verification development for the editing core of the protexted repository:
the `Operation` undo model (`src/operation.py`, `src/document.py`) and the
`TextView` projection (`src/fate/textview.py`).

Texts are modelled as `List Char`, positions as `Nat`, and fallible Python
code (IndexError, ValueError, failing assert) as `Option`/`Bool` results.
The repository's `selection.py`, `navigation.py` and `conceal.py` modules are
imported by the sources but are not part of the source tree; definitions
taken from them are modelled from the specification and carry a doc comment
starting with `Modelled from the spec:`.
-/

/-- An interval is a half-open range `[beg, end)` of text positions,
modelled as a pair of naturals (source: the `Interval` class of the missing
`selection.py`; the spec gives the invariant `0 <= beg <= end`). -/
abbrev Ivl := Nat × Nat

/-- A selection is an ordered list of intervals (source: the `Selection`
class of the missing `selection.py`). -/
abbrev Sel := List Ivl

/-- The Python sliceT `t[b:e]` on a text. -/
def sliceT (t : List Char) (b e : Nat) : List Char :=
  (t.drop b).take (e - b)

/-- Modelled from the spec: `Selection.content(doc)`, "the substring for
every interval, in order" (spec section 3). -/
def contents (t : List Char) (sel : Sel) : List (List Char) :=
  sel.map (fun i => sliceT t i.1 i.2)

/-- Modelled from the spec: `Selection.validate(doc)`, the check run by the
document's selection and text setters. Per spec section 3 a selection is a
sorted sequence of mutually non-overlapping intervals, non-empty as a whole,
and the setters keep it valid against the current text, so the bounds are
checked against the text length. -/
def validateB (sel : Sel) (t : List Char) : Bool :=
  !sel.isEmpty
    && sel.all (fun i => i.1 ≤ i.2 && i.2 ≤ t.length)
    && (sel.zip sel.tail).all (fun p => p.1.2 ≤ p.2.1)

/-- Strict interval chain from a lower bound: the first interval begins at
or after `pos`, each interval is well formed, and consecutive intervals are
strictly separated (the invariant maintained by the coalescing
`Selection.add`, which merges touching intervals). -/
def chainFromB (pos : Nat) : Sel → Bool
  | [] => true
  | (b, e) :: rest => pos ≤ b && b ≤ e && chainFromB (e + 1) rest

/-- All interval ends lie within the text length. -/
def boundedB (sel : Sel) (n : Nat) : Bool :=
  sel.all (fun i => i.2 ≤ n)

/-- A reachable document selection: non-empty, strictly separated, within
the text. -/
def strictValidB (t : List Char) (sel : Sel) : Bool :=
  !sel.isEmpty && chainFromB 0 sel && boundedB sel t.length

/-- Modelled from the spec: `Selection.partition(textLength)` yields an
ordered sequence of `(inSelection, interval)` pairs covering
`[0, textLength)` with no gaps (spec section 3). Helper walking the
selection from a running position. -/
def partitionGo (len : Nat) : Nat → Sel → List (Bool × Ivl)
  | pos, [] => if pos < len then [(false, (pos, len))] else []
  | pos, (b, e) :: rest =>
      if pos < b then
        (false, (pos, b)) :: (true, (b, e)) :: partitionGo len e rest
      else
        (true, (b, e)) :: partitionGo len e rest

/-- Modelled from the spec: `Selection.partition`. -/
def partitionSel (sel : Sel) (len : Nat) : List (Bool × Ivl) :=
  partitionGo len 0 sel

/-- Modelled from the spec: `Selection.add(interval)` merges the interval
into the list, coalescing intervals that overlap or touch
(spec section 4.1: "add must merge intervals whose ranges touch or overlap
(`end_i >= beg_{i+1}`) into one"). -/
def addInterval : Sel → Ivl → Sel
  | [], x => [x]
  | (b, e) :: rest, (xb, xe) =>
      if e < xb then (b, e) :: addInterval rest (xb, xe)
      else if xe < b then (xb, xe) :: (b, e) :: rest
      else addInterval rest (min b xb, max e xe)

/-- The `Operation` data of `src/operation.py`: captured old selection and
old content, and the replacement content. -/
structure Op where
  old_selection : Sel
  old_content : List (List Char)
  new_content : List (List Char)
deriving Repr, DecidableEq

/-- Document state relevant to operations and views. `globalSubstitutions`,
`localSubstitutions` and `highlighting` model the concealment registry and
highlighting provider consumed by `textview.py` (`localSubstitutions obeg n`
models `conceal.generate_local_substitutions(obeg, n)` followed by reading
`conceal.local_substitutions`, a list computed on demand for the requested
range, per spec section 3). -/
structure Doc where
  text : List Char
  selection : Sel
  globalSubstitutions : List (Ivl × List Char) := []
  localSubstitutions : Nat → Nat → List (Ivl × List Char) := fun _ _ => []
  highlighting : Nat → Option (List Char) := fun _ => none

/-- `Operation.__init__` (src/operation.py lines 14-23) with the default
selection (the document's current selection): `old_content` is the selected
content, and `new_content or self.old_content[:]` falls back to a copy of
the old content when `new_content` is `None` or an empty list. (The
`AttributeError` branch concerns subclasses that override `new_content` and
is not modelled.) -/
def mkOp (d : Doc) (nc : Option (List (List Char))) : Op :=
  let oc := contents d.text d.selection
  { old_selection := d.selection
    old_content := oc
    new_content := match nc with
                   | none => oc
                   | some l => if l.isEmpty then oc else l }

/-- Loop of the `new_selection` property (src/operation.py lines 37-41):
for `i >= 1`, `beg = end + old[i][0] - old[i-1][1]`,
`end = beg + len(new_content[i])`, adding each interval to the result
selection. Runs out of `new_content` entries with an IndexError (`none`);
there is no modulo indexing. Subtraction is on `Nat`; it agrees with the
source's integer arithmetic whenever the old selection is sorted
(`old[i][0] >= old[i-1][1]`), which holds for every selection a document
can carry. -/
def newSelGo (acc : Sel) (prevOldEnd prevNewEnd : Nat) :
    Sel → List (List Char) → Option Sel
  | [], _ => some acc
  | _ :: _, [] => none
  | (b, _e) :: rest, c :: cs =>
      let nb := prevNewEnd + b - prevOldEnd
      let ne := nb + c.length
      newSelGo (addInterval acc (nb, ne)) _e ne rest cs

/-- The `new_selection` property (src/operation.py lines 32-42). `none`
models the IndexError raised on an empty old selection or on a
`new_content` list shorter than the old selection. -/
def newSelection (oldSel : Sel) (nc : List (List Char)) : Option Sel :=
  match oldSel, nc with
  | [], _ => none
  | _ :: _, [] => none
  | (b0, e0) :: rest, c0 :: cs =>
      newSelGo [(b0, b0 + c0.length)] e0 (b0 + c0.length) rest cs

/-- The rebuild loop of `Operation._call` (src/operation.py lines 55-66):
walk the partition in order, copying the original substring for spans
outside the selection and consuming the next `new_content` entry for spans
inside it. `none` models the IndexError raised when `new_content` runs out;
surplus entries are ignored, as in the source. -/
def rebuildGo (t : List Char) :
    List (Bool × Ivl) → List (List Char) → Option (List Char)
  | [], _ => some []
  | (true, _) :: _, [] => none
  | (true, _) :: rest, c :: cs => (rebuildGo t rest cs).map (c ++ ·)
  | (false, i) :: rest, cs => (rebuildGo t rest cs).map (sliceT t i.1 i.2 ++ ·)

/-- The text rebuilt by `Operation._call` from the current text, the
selection being replaced, and the replacement content list. -/
def rebuildText (t : List Char) (oldSel : Sel) (nc : List (List Char)) :
    Option (List Char) :=
  rebuildGo t (partitionSel oldSel t.length) nc

/-- An observation made by an `OnTextChanged` listener: the text and the
selection stored in the document at the moment the event fires. -/
abbrev Obs := List Char × Sel

/-- The `Document.text` setter (src/document.py lines 105-113): assign
`_text`, validate the (still unchanged) stored selection against the new
text, and only then fire `OnTextChanged`. Returns the mutated document, a
success flag (`false` models the exception raised by a failing validation,
which leaves `_text` already replaced), and the states observed by
`OnTextChanged` listeners. -/
def setText (d : Doc) (t : List Char) : Doc × Bool × List Obs :=
  let d1 := { d with text := t }
  if validateB d.selection t then (d1, true, [(t, d.selection)])
  else (d1, false, [])

/-- The `Document.selection` setter (src/document.py lines 94-99): validate
the incoming selection against the current text before storing it; `none`
models the exception of a failing validation (the selection is then not
replaced). -/
def setSelection (d : Doc) (s : Sel) : Option Doc :=
  if validateB s d.text then some { d with selection := s } else none

/-- Result of running `Operation._call`: the document as the call leaves it
(even after a mid-call exception), whether the call completed, and the
states observed by `OnTextChanged` listeners during the call. -/
structure CallResult where
  final : Doc
  ok : Bool
  observed : List Obs

/-- `Operation._call` (src/operation.py lines 44-69): evaluate the
`new_selection` property, pick old/new according to `inverse`, rebuild the
whole text along the partition of the (current) old selection, assign
`session.text` and then `session.selection`. The `selection_mode` reset is
not modelled. A `none` from an intermediate step before the text assignment
leaves the document untouched. -/
def opCall (d : Doc) (op : Op) (inverse : Bool) : CallResult :=
  match newSelection op.old_selection op.new_content with
  | none => ⟨d, false, []⟩
  | some nsel =>
    let oldSel := if inverse then nsel else op.old_selection
    let newSel := if inverse then op.old_selection else nsel
    let newCont := if inverse then op.old_content else op.new_content
    match rebuildText d.text oldSel newCont with
    | none => ⟨d, false, []⟩
    | some t' =>
      let r := setText d t'
      if r.2.1 then
        match setSelection r.1 newSel with
        | some d2 => ⟨d2, true, r.2.2⟩
        | none => ⟨r.1, false, r.2.2⟩
      else ⟨r.1, false, r.2.2⟩

/-- `Operation._undo` (src/operation.py lines 71-73) is `_call` with
`inverse=True`; `opApply` is the forward call. -/
def opApply (d : Doc) (op : Op) : CallResult := opCall d op false

/-- Undoing is calling with `inverse=True`. -/
def opUndo (d : Doc) (op : Op) : CallResult := opCall d op true

/-- Translation of the spec's description of `new_selection` (used for the
refinement comparison of claim C4): lay the `new_content` strings
end-to-end, starting at the start of the old selection's first interval,
interval `i+1` beginning at the end of interval `i` plus the original gap
`old[i+1].beg - old[i].end`, each new interval's length being the length of
the corresponding `new_content` string. -/
def layoutSpecGo (prevOldEnd prevNewEnd : Nat) :
    Sel → List (List Char) → Sel
  | [], _ => []
  | _ :: _, [] => []
  | (b, _e) :: rest, c :: cs =>
      let nb := prevNewEnd + b - prevOldEnd
      (nb, nb + c.length) :: layoutSpecGo _e (nb + c.length) rest cs

/-- Translation of the spec's description of `new_selection` (claim C4). -/
def layoutSpec (oldSel : Sel) (nc : List (List Char)) : Sel :=
  match oldSel, nc with
  | [], _ => []
  | _ :: _, [] => []
  | (b0, e0) :: rest, c0 :: cs =>
      (b0, b0 + c0.length) :: layoutSpecGo e0 (b0 + c0.length) rest cs

/-- Proof-side helper: the value produced by the forward rebuild, as an
explicit splice of original gaps and replacement strings. -/
def spliceFrom (t : List Char) : Nat → Sel → List (List Char) → List Char
  | pos, [], _ => sliceT t pos t.length
  | pos, _ :: _, [] => sliceT t pos t.length
  | pos, (b, e) :: rest, c :: cs => sliceT t pos b ++ c ++ spliceFrom t e rest cs

/-- Example document: text `"ab"`, selection the empty interval at the end
of the text. -/
def exDocAB : Doc := { text := ['a', 'b'], selection := [(2, 2)] }

/-- Inserting `"xyz"` at the end of `exDocAB`. -/
def exOpIns : Op := mkOp exDocAB (some [['x', 'y', 'z']])

/-- Example document: text `"abcd"` with a two-interval selection. -/
def exDocTwo : Doc := { text := ['a', 'b', 'c', 'd'], selection := [(0, 1), (2, 3)] }

/-- A single replacement string for the two intervals of `exDocTwo`. -/
def exOpShort : Op := mkOp exDocTwo (some [['X']])

/-- Example document of the spec scenario: text `"hello\nworld\n"` with
`"hello"` selected. -/
def exDocHello : Doc :=
  { text := ['h', 'e', 'l', 'l', 'o', '\n', 'w', 'o', 'r', 'l', 'd', '\n']
    selection := [(0, 5)] }

/-- Replacing the selected `"hello"` of `exDocHello` by `"HI"`. -/
def exOpHi : Op := mkOp exDocHello (some [['H', 'I']])

/-- Example document: text `"ab"` with the first character selected. -/
def exDocAB2 : Doc := { text := ['a', 'b'], selection := [(0, 1)] }

/-! ## TextView: wrapped lines, concealment walk and viewport construction
(src/fate/textview.py) -/

/-- Helper for `splitlines`: split on every newline character (like
Python's `str.split`, always at least one part). -/
def splitlinesAux : List Char → List (List Char)
  | [] => [[]]
  | c :: r =>
      if c = '\n' then [] :: splitlinesAux r
      else
        match splitlinesAux r with
        | [] => [[c]]
        | l :: ls => (c :: l) :: ls

/-- Python's `str.splitlines` restricted to newline-only texts: like
splitting on newlines, except that the empty string yields no lines and a
trailing newline does not produce a trailing empty line. -/
def splitlines (t : List Char) : List (List Char) :=
  if t.isEmpty then []
  else if (splitlinesAux t).getLast? = some [] then (splitlinesAux t).dropLast
  else splitlinesAux t

/-- Ceiling division, `math.ceil(a / w)` for naturals (division by zero
yields 0; all callers pass a positive width). -/
def ceilDiv (a w : Nat) : Nat := (a + w - 1) / w

/-- The width-`w` chunks of one line, mirroring the comprehension of
`text_as_lines` (src/fate/textview.py lines 106-108):
`line[width*i : width*(i+1)]` for `i in range(ceil(len(line)/width))`. -/
def chunksOf (w : Nat) (l : List Char) : List (List Char) :=
  (List.range (ceilDiv l.length w)).map (fun i => (l.drop (w * i)).take w)

/-- `TextView.text_as_lines` (src/fate/textview.py lines 101-110): the view
text split into lines and wrapped at the view width. -/
def textAsLines (w : Nat) (t : List Char) : List (List Char) :=
  (splitlines t).flatMap (chunksOf w)

/-- Modelled from the spec: `navigation.count_wrapped_lines` (the
`navigation` module is not in src/). `text_as_lines` asserts that its
result has exactly this many entries, which fixes the definition: the
number of wrapped lines of width `w`. -/
def count_wrapped_lines (t : List Char) (w : Nat) : Nat :=
  (textAsLines w t).length

/-- The `(start, end)` position ranges of the width-`w` chunks of a line of
length `len` starting at text position `off`. -/
def chunkLine (w off len : Nat) : List (Nat × Nat) :=
  (List.range (ceilDiv len w)).map
    (fun i => (off + w * i, off + min (w * (i + 1)) len))

/-- Position ranges of all wrapped lines, walking the split lines with a
running offset (each line is followed by its newline except possibly the
last). -/
def chunkIntervalsGo (w : Nat) : Nat → List (List Char) → List (Nat × Nat)
  | _, [] => []
  | off, l :: ls =>
      chunkLine w off l.length ++ chunkIntervalsGo w (off + l.length + 1) ls

/-- Position ranges of the wrapped lines of a text. -/
def chunkIntervals (t : List Char) (w : Nat) : List (Nat × Nat) :=
  chunkIntervalsGo w 0 (splitlines t)

/-- Modelled from the spec: `navigation.move_n_wrapped_lines_down` (module
not in src/) — the start position of the wrapped line `n` lines below the
one containing `pos`, clamped to the last wrapped line. -/
def move_n_wrapped_lines_down (t : List Char) (w : Nat) (pos n : Nat) : Nat :=
  let cs := chunkIntervals t w
  let i := cs.findIdx (fun c => pos < c.2)
  match cs.get? (min (i + n) (cs.length - 1)) with
  | some c => c.1
  | none => pos

/-- Modelled from the spec: `navigation.end_of_wrapped_line` (module not in
src/) — the position of the last character of the wrapped line containing
`pos`. -/
def end_of_wrapped_line (t : List Char) (w : Nat) (pos : Nat) : Nat :=
  match (chunkIntervals t w).find? (fun c => pos < c.2) with
  | some c => c.2 - 1
  | none => pos

/-- Modelled from the spec: ordering of `Interval`s is lexicographic on
`(beg, end)` (spec section 3). -/
def intervalLtB (i j : Ivl) : Bool :=
  i.1 < j.1 || (i.1 = j.1 && i.2 < j.2)

/-- Lexicographic string comparison, Python `<` on strings. -/
def strLtB : List Char → List Char → Bool
  | [], [] => false
  | [], _ :: _ => true
  | _ :: _, [] => false
  | a :: as, b :: bs => if a < b then true else if b < a then false else strLtB as bs

/-- Python tuple comparison on `(Interval, replacement)` pairs. -/
def substLtB (x y : Ivl × List Char) : Bool :=
  intervalLtB x.1 y.1 || (x.1 = y.1 && strLtB x.2 y.2)

/-- `bisect.bisect_left` on a sorted substitution list: the number of
leading entries strictly below the key. -/
def bisectLeftSubst (l : List (Ivl × List Char)) (k : Ivl × List Char) : Nat :=
  (l.takeWhile (fun x => substLtB x k)).length

/-- Insert into a sorted substitution list. -/
def insertSubst (x : Ivl × List Char) :
    List (Ivl × List Char) → List (Ivl × List Char)
  | [] => [x]
  | y :: ys => if substLtB y x then y :: insertSubst x ys else x :: y :: ys

/-- Python's `list.sort()` on substitution lists (insertion sort; the order
of the result is what matters, not stability, since the walk below treats
equal keys alike). -/
def sortSubsts (l : List (Ivl × List Char)) : List (Ivl × List Char) :=
  l.foldr insertSubst []

/-- The substitution walk of `_compute_text_from_orig_interval`
(src/fate/textview.py lines 205-238): from `opos`/`vpos`, alternately copy
verbatim spans and emit replacements, extending the forward map
(`opos_to_vpos`, second component) and the backward map (`vpos_to_opos`,
third component) position by position. The structural `fuel` argument
dominates the loop's step count; `walkSubsts` below supplies enough fuel
for every terminating run. `none` on `olength = 0` models the source loop
making no progress (it would spin forever there, which cannot happen for
well-formed substitution lists), and `none` on exhausted fuel is
unreachable. Positions are naturals; this agrees with the source's integer
arithmetic whenever the substitutions are well-formed intervals on sorted
non-overlapping in-range spans. -/
def walkGo (otext : List Char) (obeg sample : Nat) :
    Nat → Nat → Nat → List (Ivl × List Char) →
      Option (List Char × List Nat × List Nat)
  | 0, _, _, _ => none
  | fuel + 1, opos, vpos, substs =>
      if opos < obeg + sample then
        match substs with
        | [] =>
            let olength := min (sample - (opos - obeg))
              (otext.length - (opos - obeg))
            some (sliceT otext opos (opos + olength),
              List.range' vpos olength,
              List.range' opos olength)
        | ((sbeg, send), repl) :: rest =>
            if opos < sbeg then
              let olength := min (sbeg - opos) (sample - vpos)
              if olength = 0 then none
              else
                match walkGo otext obeg sample fuel (opos + olength)
                    (vpos + olength) (((sbeg, send), repl) :: rest) with
                | none => none
                | some (vt, f, b) =>
                    some (sliceT otext opos (opos + olength) ++ vt,
                      List.range' vpos olength ++ f,
                      List.range' opos olength ++ b)
            else
              match walkGo otext obeg sample fuel (opos + (send - sbeg))
                  (vpos + repl.length) rest with
              | none => none
              | some (vt, f, b) =>
                  some (repl ++ vt,
                    List.replicate (send - sbeg) vpos ++ f,
                    List.replicate repl.length opos ++ b)
      else some ([], [], [])

/-- The substitution walk started at `opos = obeg`, `vpos = 0`, with enough
fuel for any terminating run (each step either advances `opos` within the
sample or consumes a substitution). -/
def walkSubsts (otext : List Char) (obeg sample : Nat)
    (substs : List (Ivl × List Char)) :
    Option (List Char × List Nat × List Nat) :=
  walkGo otext obeg sample (sample + substs.length + 1) obeg 0 substs

/-- `_compute_text_from_orig_interval` (src/fate/textview.py lines
175-255): merge the on-demand local substitutions with the binary-searched
slice of the sorted global ones, sort, walk, and append one sentinel entry
to each map (`len(vtext)` forward, `o_sample_length` backward). -/
def computeTextFromOrigInterval (doc : Doc) (obeg sample : Nat) :
    Option (List Char × List Nat × List Nat) :=
  let first := bisectLeftSubst doc.globalSubstitutions ((obeg, obeg), [])
  let last := bisectLeftSubst doc.globalSubstitutions
    ((obeg + sample, obeg + sample), [])
  let substs := sortSubsts (doc.localSubstitutions obeg sample
    ++ (doc.globalSubstitutions.drop first).take (last - first))
  match walkSubsts doc.text obeg sample substs with
  | none => none
  | some (vt, f, b) => some (vt, f ++ [vt.length], b ++ [sample])

/-- The doubling loop of `_compute_text_from_view_interval`
(src/fate/textview.py lines 133-146): recompute the concealed sample while
it wraps to fewer than `h` lines and original text remains, doubling the
sample length. The structural `fuel` bounds the iteration count; `stageA`
supplies enough for every run (the sample at least doubles each time and
the loop stops once it reaches the text length). -/
def stageALoop (doc : Doc) (w h : Nat) :
    Nat → Nat → Nat → Option (List Char × List Nat × List Nat × Nat)
  | 0, _, _ => none
  | fuel + 1, obeg, sample =>
      match computeTextFromOrigInterval doc obeg sample with
      | none => none
      | some (vt, f, b) =>
          if count_wrapped_lines vt w < h ∧ obeg + sample < doc.text.length
          then stageALoop doc w h fuel obeg (2 * sample)
          else some (vt, f, b, sample)

/-- The doubling loop started at sample length 1. -/
def stageA (doc : Doc) (w h obeg : Nat) :
    Option (List Char × List Nat × List Nat × Nat) :=
  stageALoop doc w h (doc.text.length + 1) obeg 1

/-- `_compute_text_from_view_interval` (src/fate/textview.py lines
112-173): empty remainder returns `('', [0], [0])` at once; otherwise run
the doubling loop, snap to the exact end of wrapped line `h - 1`, check the
source's asserts (`none` models an assert failure): the half-snap bound
`required_length > len(vtext) // 2` (line 156) and the post-conditions
`len(text) == required_length` and
`len(origpos_to_viewpos) == required_length + 1` (lines 169-170), which
after the append and the two truncations amount to
`required ≤ len(vtext)` and `required ≤ len(f)`; then append the second
pair of sentinels, truncate the text and the forward map (the backward map
is returned untruncated, as in the source). -/
def computeTextFromViewInterval (doc : Doc) (w h off : Nat) :
    Option (List Char × List Nat × List Nat) :=
  if doc.text.length - off = 0 then some ([], [0], [0])
  else
    match stageA doc w h off with
    | none => none
    | some (vt, f, b, sample) =>
        let lastLine := move_n_wrapped_lines_down vt w 0 (h - 1)
        let required := end_of_wrapped_line vt w lastLine + 1
        if vt.length / 2 < required ∧ required ≤ vt.length
            ∧ required ≤ f.length then
          some (vt.take required, (f ++ [vt.length]).take (required + 1),
            b ++ [sample])
        else none

/-- Python list indexing, including the negative-index wraparound;
`none` models an IndexError. -/
def pyGetNat (l : List Nat) (i : Int) : Option Nat :=
  if 0 ≤ i then l.get? i.toNat
  else if (-i).toNat ≤ l.length then l.get? (l.length - (-i).toNat)
  else none

/-- Modelled from the spec: the `Interval` constructor is a hard failure
unless `0 ≤ beg ≤ end` (spec sections 3 and 7). -/
def mkIvl (b e : Int) : Option Ivl :=
  if 0 ≤ b ∧ b ≤ e then some (b.toNat, e.toNat) else none

/-- `_compute_selection` (src/fate/textview.py lines 270-298) together with
its `@post` check `_compute_selectionview_post` (lines 11-13): for each
document-selection interval that is visible (overlaps `[o_viewbeg,
o_viewend)` or is an empty interval at one of those boundaries), clamp it,
translate `vbeg = origpos_to_viewpos[beg - offset]` (Python indexing, so a
negative index wraps) and `vend = origpos_to_viewpos[end] - offset`, and
add the interval to the selection view; finally check
`0 <= vbeg <= vend <= len(text)` for every resulting interval. -/
def selStep (ovb ove : Nat) (m1 : List Nat) (off : Nat)
    (acc : Option Sel) (i : Ivl) : Option Sel :=
  match acc with
  | none => none
  | some acc =>
      if (i.1 < ove ∧ ovb < i.2) ∨ (i.1 = i.2 ∧ i.1 = ovb)
          ∨ (i.1 = i.2 ∧ i.1 = ove) then
        match pyGetNat m1 ((max i.1 ovb : Int) - (off : Int)),
            m1.get? (min ove i.2) with
        | some vb, some x =>
            match mkIvl (vb : Int) ((x : Int) - (off : Int)) with
            | some ivl => some (addInterval acc ivl)
            | none => none
        | _, _ => none
      else some acc

/-- The fold of `_compute_selection` over the document selection, followed
by the `@post` bound check. -/
def computeSelection (doc : Doc) (text : List Char) (m1 m2 : List Nat)
    (off : Nat) : Option Sel :=
  match m2.get? 0, m2.get? text.length with
  | some ovb, some ove =>
      match doc.selection.foldl (selStep ovb ove m1 off) (some []) with
      | none => none
      | some res =>
          if res.all (fun i => i.1 ≤ i.2 && i.2 ≤ text.length) then some res
          else none
  | _, _ => none

/-- `_compute_highlighting` (src/fate/textview.py lines 257-268): for every
view position, look the corresponding original position up in the
document's highlighting, defaulting to the empty annotation. -/
def computeHighlighting (doc : Doc) (text : List Char) (m2 : List Nat) :
    Option (List (List Char)) :=
  (List.range text.length).mapM
    (fun i => (m2.get? i).map (fun opos => (doc.highlighting opos).getD []))

/-- The `TextView` data (src/fate/textview.py lines 45-56). -/
structure TextView where
  width : Nat
  height : Nat
  offset : Nat
  text : List Char
  selection : Sel
  highlighting : List (List Char)
  origpos_to_viewpos : List Nat
  viewpos_to_origpos : List Nat
deriving Repr, DecidableEq

/-- `TextView.for_screen` (src/fate/textview.py lines 58-82): reject
non-positive width/height and an offset beyond the text, then compute the
view text with its position maps, the selection view and the highlighting
view. -/
def for_screen (doc : Doc) (w h off : Nat) : Option TextView :=
  if w = 0 || h = 0 || decide (doc.text.length < off) then none
  else
    match computeTextFromViewInterval doc w h off with
    | none => none
    | some (t, m1, m2) =>
        match computeSelection doc t m1 m2 off with
        | none => none
        | some selv =>
            match computeHighlighting doc t m2 with
            | none => none
            | some hl => some ⟨w, h, off, t, selv, hl, m1, m2⟩

/-- `TextView.text_as_lines` as a method of the view. -/
def TextView.text_as_lines (tv : TextView) : List (List Char) :=
  textAsLines tv.width tv.text

/-- Example document for the view claims: text `"abcd"` with `"a"`
selected, no concealment. -/
def exDocPlain : Doc := { text := ['a', 'b', 'c', 'd'], selection := [(0, 1)] }

/-- Example document: one character, selection the empty interval at the
start. -/
def exDocOneChar : Doc := { text := ['a'], selection := [(0, 0)] }

/-- Example document: text `"ab"`, whole text selected. -/
def exDocWhole : Doc := { text := ['a', 'b'], selection := [(0, 2)] }

/-- Example document with a concealment: text `"abcd"`, selection `"c"`,
and a global substitution replacing `"c"` (span `[2,3)`) by `"XYZ"`. -/
def exDocConceal : Doc :=
  { text := ['a', 'b', 'c', 'd'], selection := [(1, 2)]
    globalSubstitutions := [((2, 3), ['X', 'Y', 'Z'])] }

/-- Example document with a shrinking concealment: text `"abcde"`,
selection the single interval `(1,2)`, and a global substitution replacing
the span `[2,4)` (`"cd"`) by `"Z"`. -/
def exDocShrink : Doc :=
  { text := ['a', 'b', 'c', 'd', 'e'], selection := [(1, 2)]
    globalSubstitutions := [((2, 4), ['Z'])] }

/-- Example document with empty text and the empty interval selected: the
only selection an empty text admits. -/
def exDocNilSel : Doc := { text := [], selection := [(0, 0)] }

/-- Sorted, non-overlapping, in-range substitution list starting at or
after `pos` and contained in `[pos, lim)`': the concealment registry
invariant (spec section 3: "entries are sorted by original-position
interval and non-overlapping"), relative to the sampled range. -/
def substChainB (pos lim : Nat) : List (Ivl × List Char) → Bool
  | [] => true
  | ((sb, se), _) :: rest =>
      pos ≤ sb && sb ≤ se && se ≤ lim && substChainB se lim rest

/-! ## Basic lemmas about slices, chains and the partition walk -/

theorem sliceT_length {t : List Char} {b e : Nat}
    (h2 : e ≤ t.length) : (sliceT t b e).length = e - b := by
  simp [sliceT]
  omega

theorem sliceT_whole (t : List Char) : sliceT t 0 t.length = t := by
  simp [sliceT]

theorem sliceT_empty (t : List Char) (b : Nat) : sliceT t b b = [] := by
  simp [sliceT]

theorem sliceT_glue {t : List Char} {a b c : Nat} (h1 : a ≤ b) (h2 : b ≤ c) :
    sliceT t a b ++ sliceT t b c = sliceT t a c := by
  have hd : t.drop b = (t.drop a).drop (b - a) := by
    rw [List.drop_drop]
    congr 1
    omega
  have hc : c - a = (b - a) + (c - b) := by omega
  rw [sliceT, sliceT, sliceT, hd, hc, List.take_add]

theorem sliceT_window {P X Y : List Char} {v k : Nat} (hP : P.length = v)
    (hX : X.length = k) : sliceT (P ++ (X ++ Y)) v (v + k) = X := by
  rw [sliceT, show v + k - v = k by omega, ← hP, List.drop_left, ← hX,
    List.take_left]

theorem chainFromB_mono {sel : Sel} :
    ∀ {p q : Nat}, p ≤ q → chainFromB q sel = true → chainFromB p sel = true := by
  induction sel with
  | nil => intro p q _ _; rfl
  | cons i rest ih =>
      intro p q hpq h
      obtain ⟨b, e⟩ := i
      simp only [chainFromB, Bool.and_eq_true, decide_eq_true_eq] at h ⊢
      exact ⟨⟨by omega, h.1.2⟩, h.2⟩

theorem rebuild_from_nil {t : List Char} {len pos : Nat} (h : pos ≤ len)
    (cs : List (List Char)) :
    rebuildGo t (partitionGo len pos []) cs = some (sliceT t pos len) := by
  by_cases hlt : pos < len
  · simp [partitionGo, hlt, rebuildGo]
  · have : pos = len := by omega
    subst this
    simp [partitionGo, rebuildGo, sliceT_empty]

theorem rebuild_cons {t : List Char} {len pos b e : Nat} {rest : Sel}
    {c : List Char} {cs : List (List Char)} (hpb : pos ≤ b) :
    rebuildGo t (partitionGo len pos ((b, e) :: rest)) (c :: cs)
      = (rebuildGo t (partitionGo len e rest) cs).map
          (fun r => sliceT t pos b ++ (c ++ r)) := by
  by_cases h : pos < b
  · simp only [partitionGo, if_pos h, rebuildGo, Option.map_map]
    rfl
  · have : pos = b := by omega
    subst this
    simp [partitionGo, rebuildGo, sliceT_empty]

theorem rebuild_eq_splice {t : List Char} :
    ∀ (sel : Sel) (nc : List (List Char)) (pos : Nat),
      chainFromB pos sel = true → boundedB sel t.length = true →
      pos ≤ t.length → sel.length ≤ nc.length →
      rebuildGo t (partitionGo t.length pos sel) nc
        = some (spliceFrom t pos sel nc) := by
  intro sel
  induction sel with
  | nil =>
      intro nc pos _ _ hpos _
      rw [rebuild_from_nil hpos]
      rfl
  | cons i rest ih =>
      intro nc pos hchain hbdd hpos hlen
      obtain ⟨b, e⟩ := i
      match nc with
      | [] => simp at hlen
      | c :: cs =>
        simp only [chainFromB, Bool.and_eq_true, decide_eq_true_eq] at hchain
        simp only [boundedB, List.all_cons, Bool.and_eq_true,
          decide_eq_true_eq] at hbdd
        rw [rebuild_cons hchain.1.1]
        rw [ih cs e (chainFromB_mono (Nat.le_succ e) hchain.2)
          (by simpa [boundedB] using hbdd.2) hbdd.1 (by simpa using hlen)]
        simp [spliceFrom]

theorem rebuild_undo {t : List Char} :
    ∀ (sel : Sel) (nc : List (List Char)) (pos v : Nat) (P : List Char),
      P.length = v → chainFromB pos sel = true → boundedB sel t.length = true →
      pos ≤ t.length → sel.length ≤ nc.length →
      rebuildGo (P ++ spliceFrom t pos sel nc)
        (partitionGo (P ++ spliceFrom t pos sel nc).length v
          (layoutSpecGo pos v sel nc))
        (contents t sel)
        = some (sliceT t pos t.length) := by
  intro sel
  induction sel with
  | nil =>
      intro nc pos v P hP _ _ hpos _
      have hv : v ≤ (P ++ spliceFrom t pos [] nc).length := by
        simp [hP.symm]
      rw [show layoutSpecGo pos v [] nc = [] from by cases nc <;> rfl]
      rw [show contents t [] = [] from rfl]
      rw [rebuild_from_nil hv]
      congr 1
      have hsp : spliceFrom t pos [] nc = sliceT t pos t.length := by
        cases nc <;> rfl
      rw [hsp, sliceT, List.length_append, ← hP, List.drop_left]
      simp
  | cons i rest ih =>
      intro nc pos v P hP hchain hbdd hpos hlen
      obtain ⟨b, e⟩ := i
      match nc with
      | [] => simp at hlen
      | c :: cs =>
        simp only [chainFromB, Bool.and_eq_true, decide_eq_true_eq] at hchain
        simp only [boundedB, List.all_cons, Bool.and_eq_true,
          decide_eq_true_eq] at hbdd
        obtain ⟨⟨hposb, hbe⟩, hchain'⟩ := hchain
        obtain ⟨hel, hbdd'⟩ := hbdd
        have hbl : b ≤ t.length := le_trans hbe hel
        have hsl : (sliceT t pos b).length = b - pos := sliceT_length hbl
        have hnb : v ≤ v + b - pos := by omega
        rw [show layoutSpecGo pos v ((b, e) :: rest) (c :: cs)
            = (v + b - pos, (v + b - pos) + c.length)
              :: layoutSpecGo e ((v + b - pos) + c.length) rest cs from rfl]
        rw [show contents t ((b, e) :: rest) = sliceT t b e :: contents t rest
          from rfl]
        rw [show spliceFrom t pos ((b, e) :: rest) (c :: cs)
            = sliceT t pos b ++ c ++ spliceFrom t e rest cs from rfl]
        rw [rebuild_cons hnb]
        have hassoc : P ++ (sliceT t pos b ++ c ++ spliceFrom t e rest cs)
            = (P ++ sliceT t pos b ++ c) ++ spliceFrom t e rest cs := by
          simp [List.append_assoc]
        have hP' : (P ++ sliceT t pos b ++ c).length = (v + b - pos) + c.length := by
          simp [hP, hsl]
          omega
        have hrec := ih cs e ((v + b - pos) + c.length)
          (P ++ sliceT t pos b ++ c) hP'
          (chainFromB_mono (Nat.le_succ e) hchain') (by simpa [boundedB] using hbdd')
          hel (by simpa using hlen)
        rw [hassoc, hrec]
        have hwin : sliceT ((P ++ sliceT t pos b ++ c) ++ spliceFrom t e rest cs)
            v (v + b - pos)
            = sliceT t pos b := by
          have := sliceT_window (P := P) (X := sliceT t pos b)
            (Y := c ++ spliceFrom t e rest cs) (v := v) (k := b - pos) hP hsl
          rw [show v + b - pos = v + (b - pos) by omega]
          simpa [List.append_assoc] using this
        rw [hwin]
        have hfin : sliceT t pos b ++ (sliceT t b e ++ sliceT t e t.length)
            = sliceT t pos t.length := by
          rw [sliceT_glue hbe hel, sliceT_glue hposb hbl]
        simp [hfin]

theorem addInterval_append {acc : Sel} {xb xe : Nat}
    (h : ∀ i ∈ acc, i.2 < xb) : addInterval acc (xb, xe) = acc ++ [(xb, xe)] := by
  induction acc with
  | nil => rfl
  | cons i rest ih =>
      obtain ⟨b, e⟩ := i
      have he : e < xb := h (b, e) (List.mem_cons_self _ _)
      simp only [addInterval, if_pos he, List.cons_append]
      rw [ih (fun j hj => h j (List.mem_cons_of_mem _ hj))]

theorem newSelGo_eq_layout :
    ∀ (sel : Sel) (cs : List (List Char)) (acc : Sel) (po pn : Nat),
      chainFromB (po + 1) sel = true → sel.length ≤ cs.length →
      (∀ i ∈ acc, i.2 ≤ pn) →
      newSelGo acc po pn sel cs = some (acc ++ layoutSpecGo po pn sel cs) := by
  intro sel
  induction sel with
  | nil => intro cs acc po pn _ _ _; cases cs <;> simp [newSelGo, layoutSpecGo]
  | cons i rest ih =>
      intro cs acc po pn hchain hlen hacc
      obtain ⟨b, e⟩ := i
      match cs with
      | [] => simp at hlen
      | c :: cs' =>
        simp only [chainFromB, Bool.and_eq_true, decide_eq_true_eq] at hchain
        obtain ⟨⟨hpb, _⟩, hchain'⟩ := hchain
        have hnb : ∀ i ∈ acc, i.2 < pn + b - po :=
          fun i hi => lt_of_le_of_lt (hacc i hi) (by omega)
        simp only [newSelGo, layoutSpecGo]
        rw [addInterval_append hnb]
        rw [ih cs' (acc ++ [(pn + b - po, pn + b - po + c.length)]) e
          (pn + b - po + c.length) hchain' (by simpa using hlen)
          (by
            intro i hi
            rcases List.mem_append.mp hi with hl | hr
            · exact le_trans (le_trans (hacc i hl) (by omega)) (le_refl _)
            · simp at hr
              subst hr
              simp)]
        simp

theorem newSelection_eq_layout {sel : Sel} {nc : List (List Char)}
    (hne : sel ≠ []) (hchain : chainFromB 0 sel = true)
    (hlen : sel.length ≤ nc.length) :
    newSelection sel nc = some (layoutSpec sel nc) := by
  match sel, nc with
  | [], _ => exact absurd rfl hne
  | _ :: _, [] => simp at hlen
  | (b0, e0) :: rest, c0 :: cs =>
    simp only [chainFromB, Bool.and_eq_true, decide_eq_true_eq] at hchain
    simp only [newSelection, layoutSpec]
    rw [newSelGo_eq_layout rest cs _ e0 (b0 + c0.length)
      hchain.2 (by simpa using hlen)
      (by intro i hi; simp at hi; subst hi; simp)]
    simp

theorem newSelGo_short :
    ∀ (sel : Sel) (cs : List (List Char)) (acc : Sel) (po pn : Nat),
      cs.length < sel.length → newSelGo acc po pn sel cs = none := by
  intro sel
  induction sel with
  | nil => intro cs acc po pn h; simp at h
  | cons i rest ih =>
      intro cs acc po pn h
      obtain ⟨b, e⟩ := i
      match cs with
      | [] => rfl
      | c :: cs' => exact ih cs' _ _ _ (by simpa using h)

theorem newSelection_short {sel : Sel} {nc : List (List Char)}
    (h : nc.length < sel.length) : newSelection sel nc = none := by
  match sel, nc with
  | [], _ => simp at h
  | _ :: _, [] => rfl
  | (b0, e0) :: rest, c0 :: cs =>
    exact newSelGo_short rest cs _ _ _ (by simpa using h)

theorem newSelGo_some_length :
    ∀ (sel : Sel) (cs : List (List Char)) (acc : Sel) (po pn : Nat) (r : Sel),
      newSelGo acc po pn sel cs = some r → sel.length ≤ cs.length := by
  intro sel
  induction sel with
  | nil => intro cs _ _ _ _ _; simp
  | cons i rest ih =>
      intro cs acc po pn r h
      obtain ⟨b, e⟩ := i
      match cs with
      | [] => exact absurd h (by simp [newSelGo])
      | c :: cs' =>
        simp only [newSelGo] at h
        simpa using ih cs' _ _ _ r h

theorem newSelection_some_length {sel : Sel} {nc : List (List Char)} {r : Sel}
    (h : newSelection sel nc = some r) : sel ≠ [] ∧ sel.length ≤ nc.length := by
  match sel, nc with
  | [], _ => exact absurd h (by simp [newSelection])
  | _ :: _, [] => exact absurd h (by simp [newSelection])
  | (b0, e0) :: rest, c0 :: cs =>
    refine ⟨by simp, ?_⟩
    simp only [newSelection] at h
    simpa using newSelGo_some_length rest cs _ _ _ r h

theorem layoutSpecGo_contents {t : List Char} :
    ∀ (sel : Sel) (q : Nat),
      chainFromB q sel = true → boundedB sel t.length = true →
      layoutSpecGo q q sel (contents t sel) = sel := by
  intro sel
  induction sel with
  | nil => intro q _ _; rfl
  | cons i rest ih =>
      intro q hchain hbdd
      obtain ⟨b, e⟩ := i
      simp only [chainFromB, Bool.and_eq_true, decide_eq_true_eq] at hchain
      simp only [boundedB, List.all_cons, Bool.and_eq_true,
        decide_eq_true_eq] at hbdd
      obtain ⟨⟨hqb, hbe⟩, hchain'⟩ := hchain
      have hlen : (sliceT t b e).length = e - b := sliceT_length hbdd.1
      show (q + b - q, q + b - q + (sliceT t b e).length)
          :: layoutSpecGo e (q + b - q + (sliceT t b e).length) rest
            (contents t rest) = (b, e) :: rest
      have h1 : q + b - q = b := by omega
      rw [h1]
      have h2 : b + (sliceT t b e).length = e := by omega
      rw [h2, ih e (chainFromB_mono (Nat.le_succ e) hchain')
        (by simpa [boundedB] using hbdd.2)]

theorem layoutSpec_contents {t : List Char} {sel : Sel}
    (hchain : chainFromB 0 sel = true) (hbdd : boundedB sel t.length = true) :
    layoutSpec sel (contents t sel) = sel := by
  match sel with
  | [] => rfl
  | (b0, e0) :: rest =>
    simp only [chainFromB, Bool.and_eq_true, decide_eq_true_eq] at hchain
    simp only [boundedB, List.all_cons, Bool.and_eq_true,
      decide_eq_true_eq] at hbdd
    show (b0, b0 + (sliceT t b0 e0).length)
        :: layoutSpecGo e0 (b0 + (sliceT t b0 e0).length) rest
          (contents t rest) = (b0, e0) :: rest
    have hlen : (sliceT t b0 e0).length = e0 - b0 := sliceT_length hbdd.1
    have h2 : b0 + (sliceT t b0 e0).length = e0 := by
      have := hchain.1.2
      omega
    rw [h2, layoutSpecGo_contents rest e0
      (chainFromB_mono (Nat.le_succ e0) hchain.2)
      (by simpa [boundedB] using hbdd.2)]

theorem spliceFrom_contents {t : List Char} :
    ∀ (sel : Sel) (pos : Nat),
      chainFromB pos sel = true → boundedB sel t.length = true →
      spliceFrom t pos sel (contents t sel) = sliceT t pos t.length := by
  intro sel
  induction sel with
  | nil => intro pos _ _; rfl
  | cons i rest ih =>
      intro pos hchain hbdd
      obtain ⟨b, e⟩ := i
      simp only [chainFromB, Bool.and_eq_true, decide_eq_true_eq] at hchain
      simp only [boundedB, List.all_cons, Bool.and_eq_true,
        decide_eq_true_eq] at hbdd
      show sliceT t pos b ++ sliceT t b e ++ spliceFrom t e rest (contents t rest)
          = sliceT t pos t.length
      rw [ih e (chainFromB_mono (Nat.le_succ e) hchain.2)
        (by simpa [boundedB] using hbdd.2)]
      rw [List.append_assoc, sliceT_glue hchain.1.2 hbdd.1,
        sliceT_glue hchain.1.1 (le_trans hchain.1.2 hbdd.1)]

theorem chain_zip_pairs :
    ∀ (sel : Sel) (p : Nat), chainFromB p sel = true →
      ((sel.zip sel.tail).all fun q => q.1.2 ≤ q.2.1) = true := by
  intro sel
  induction sel with
  | nil => intro p _; rfl
  | cons i rest ih =>
      intro p hchain
      obtain ⟨b, e⟩ := i
      simp only [chainFromB, Bool.and_eq_true, decide_eq_true_eq] at hchain
      match rest, hchain.2 with
      | [], _ => rfl
      | (b', e') :: r', hch' =>
        have hb' : e + 1 ≤ b' := by
          simp only [chainFromB, Bool.and_eq_true, decide_eq_true_eq] at hch'
          exact hch'.1.1
        simp only [List.tail_cons, List.zip_cons_cons, List.all_cons,
          Bool.and_eq_true, decide_eq_true_eq]
        exact ⟨by omega, by simpa using ih (e + 1) hchain.2⟩

theorem chain_wellformed :
    ∀ (sel : Sel) (p : Nat), chainFromB p sel = true →
      ∀ i ∈ sel, i.1 ≤ i.2 := by
  intro sel
  induction sel with
  | nil => intro p _ i hi; simp at hi
  | cons j rest ih =>
      intro p hchain i hi
      obtain ⟨b, e⟩ := j
      simp only [chainFromB, Bool.and_eq_true, decide_eq_true_eq] at hchain
      rcases List.mem_cons.mp hi with h | h
      · subst h; exact hchain.1.2
      · exact ih (e + 1) hchain.2 i h

theorem strictValid_validate {t : List Char} {sel : Sel}
    (h : strictValidB t sel = true) : validateB sel t = true := by
  simp only [strictValidB, Bool.and_eq_true] at h
  obtain ⟨⟨hne, hchain⟩, hbdd⟩ := h
  simp only [validateB, Bool.and_eq_true]
  refine ⟨⟨hne, ?_⟩, chain_zip_pairs sel 0 hchain⟩
  simp only [boundedB] at hbdd
  rw [List.all_eq_true] at hbdd ⊢
  intro i hi
  simp only [Bool.and_eq_true, decide_eq_true_eq]
  exact ⟨chain_wellformed sel 0 hchain i hi, by simpa using hbdd i hi⟩

theorem layoutSpec_eq_go (sel : Sel) (nc : List (List Char)) :
    layoutSpec sel nc = layoutSpecGo 0 0 sel nc := by
  match sel, nc with
  | [], _ => cases nc <;> rfl
  | _ :: _, [] => rfl
  | (b0, e0) :: rest, c0 :: cs =>
    show _ = (0 + b0 - 0, 0 + b0 - 0 + c0.length)
        :: layoutSpecGo e0 (0 + b0 - 0 + c0.length) rest cs
    simp [layoutSpec]

/-! ## Claim theorems: the Operation/undo model -/

/-- C4: for every Operation (with a well-formed captured selection and a
`new_content` list at least as long as it), `new_selection` is exactly the
selection described by the spec: the `new_content` strings laid end-to-end
from the start of the first old interval, consecutive gaps preserved, each
new interval's length the length of the corresponding `new_content`
string (`layoutSpec`). -/
theorem C4_new_selection_layout (op : Op)
    (hne : op.old_selection ≠ [])
    (hchain : chainFromB 0 op.old_selection = true)
    (hlen : op.old_selection.length ≤ op.new_content.length) :
    newSelection op.old_selection op.new_content
      = some (layoutSpec op.old_selection op.new_content) :=
  newSelection_eq_layout hne hchain hlen

/-- C4 witness: the layout law evaluated on the `"hello"` example. -/
theorem C4_witness :
    exOpHi.old_selection ≠ []
      ∧ newSelection exOpHi.old_selection exOpHi.new_content
          = some (layoutSpec exOpHi.old_selection exOpHi.new_content)
      ∧ layoutSpec exOpHi.old_selection exOpHi.new_content = [(0, 2)] :=
  ⟨by decide, C4_new_selection_layout exOpHi (by decide) (by decide) (by decide),
    by decide⟩

/-- C2 (amended): an Operation whose `new_content` has fewer entries than
`old_selection` has intervals does not reuse entries cyclically; applying it
fails (the `new_selection` property indexes `new_content` out of range with
no modulo) and the document is left unchanged, with no notification
fired. -/
theorem C2_short_content_fails (d : Doc) (op : Op)
    (h : op.new_content.length < op.old_selection.length) :
    (opApply d op).ok = false
      ∧ (opApply d op).final.text = d.text
      ∧ (opApply d op).final.selection = d.selection
      ∧ (opApply d op).observed = [] := by
  have hn := newSelection_short h
  simp [opApply, opCall, hn]

/-- C2 counterexample: on text `"abcd"` with selection `[(0,1),(2,3)]` and
`new_content = ["X"]`, the claim's cyclic reuse (which would produce
`"XbXd"`) does not happen: applying fails and changes nothing. -/
theorem C2_cex :
    exOpShort.new_content.length < exOpShort.old_selection.length
      ∧ (opApply exDocTwo exOpShort).ok = false
      ∧ (opApply exDocTwo exOpShort).final.text = exDocTwo.text
      ∧ (opApply exDocTwo exOpShort).final.text
          ≠ ['X', 'b', 'X', 'd'] := by decide

/-- C2 witness: the amended claim evaluated on the concrete short-content
operation. -/
theorem C2_witness :
    exOpShort.new_content.length < exOpShort.old_selection.length
      ∧ (opApply exDocTwo exOpShort).observed = [] :=
  ⟨by decide, (C2_short_content_fails exDocTwo exOpShort (by decide)).2.2.2⟩

/-- C3: replacing the selected content with itself leaves the document's
text and selection unchanged, for every document whose selection is a
reachable one (non-empty, strictly separated, within the text). -/
theorem C3_self_round_trip (d : Doc)
    (hv : strictValidB d.text d.selection = true) :
    (opApply d (mkOp d (some (contents d.text d.selection)))).ok = true
      ∧ (opApply d (mkOp d (some (contents d.text d.selection)))).final.text
          = d.text
      ∧ (opApply d (mkOp d (some (contents d.text d.selection)))).final.selection
          = d.selection := by
  have hv' := hv
  simp only [strictValidB, Bool.and_eq_true] at hv'
  obtain ⟨⟨hne, hchain⟩, hbdd⟩ := hv'
  have hne' : d.selection ≠ [] := by
    simpa using hne
  have hlen : d.selection.length ≤ (contents d.text d.selection).length := by
    simp [contents]
  have hop : mkOp d (some (contents d.text d.selection))
      = ⟨d.selection, contents d.text d.selection,
          contents d.text d.selection⟩ := by
    simp [mkOp]
  have hns : newSelection d.selection (contents d.text d.selection)
      = some d.selection := by
    rw [newSelection_eq_layout hne' hchain hlen,
      layoutSpec_contents hchain hbdd]
  have hrb : rebuildText d.text d.selection (contents d.text d.selection)
      = some d.text := by
    rw [rebuildText, partitionSel,
      rebuild_eq_splice d.selection _ 0 hchain hbdd (Nat.zero_le _) hlen,
      spliceFrom_contents d.selection 0 hchain hbdd, sliceT_whole]
  have hval : validateB d.selection d.text = true := strictValid_validate hv
  rw [hop]
  simp [opApply, opCall, hns, hrb, setText, setSelection, hval]

/-- C3 witness: the round trip evaluated on the `"hello\nworld\n"`
document. -/
theorem C3_witness :
    strictValidB exDocHello.text exDocHello.selection = true
      ∧ (opApply exDocHello
          (mkOp exDocHello
            (some (contents exDocHello.text exDocHello.selection)))).final.text
          = exDocHello.text :=
  ⟨by decide, (C3_self_round_trip exDocHello (by decide)).2.1⟩

/-- C5 (amended): apply/undo is not atomic. A successful call fires the
text-changed notification between the text assignment and the selection
assignment, so its reader observes exactly the new text paired with the old
selection; a failed call never updates the selection, and fires either no
notification (failure before or at the text assignment) or that same one
(failure at the selection assignment). -/
theorem C5_notification_order (d : Doc) (op : Op) (inv : Bool) :
    ((opCall d op inv).ok = true →
      (opCall d op inv).observed
        = [((opCall d op inv).final.text, d.selection)])
    ∧ ((opCall d op inv).ok = false →
      (opCall d op inv).final.selection = d.selection)
    ∧ ((opCall d op inv).ok = false →
      (opCall d op inv).observed = []
        ∨ (opCall d op inv).observed
            = [((opCall d op inv).final.text, d.selection)]) := by
  cases hns : newSelection op.old_selection op.new_content with
  | none => simp [opCall, hns]
  | some nsel =>
    cases hrb : rebuildText d.text (if inv then nsel else op.old_selection)
        (if inv then op.old_content else op.new_content) with
    | none => simp [opCall, hns, hrb]
    | some t' =>
      by_cases hv1 : validateB d.selection t'
      · by_cases hv2 : validateB (if inv then op.old_selection else nsel) t'
        · simp [opCall, hns, hrb, setText, setSelection, hv1, hv2]
        · simp [opCall, hns, hrb, setText, setSelection, hv1, hv2]
      · simp [opCall, hns, hrb, setText, hv1]

/-- C5 counterexample: replacing `"hello"` by `"HI"` succeeds, and the
text-changed reader observes the new text `"HI\nworld\n"` still paired with
the old selection `[(0,5)]`, which differs from the final state's pairing —
a reader can observe the new text with the old selection. -/
theorem C5_cex :
    (opApply exDocHello exOpHi).ok = true
      ∧ (opApply exDocHello exOpHi).observed
          = [((opApply exDocHello exOpHi).final.text, exDocHello.selection)]
      ∧ (opApply exDocHello exOpHi).final.text ≠ exDocHello.text
      ∧ (opApply exDocHello exOpHi).final.selection
          ≠ exDocHello.selection := by decide

/-- C5 witness: the amended claim evaluated on the `"HI"` operation. -/
theorem C5_witness :
    (opApply exDocHello exOpHi).ok = true
      ∧ (opApply exDocHello exOpHi).observed
          = [((opApply exDocHello exOpHi).final.text, exDocHello.selection)] :=
  ⟨by decide, (C5_notification_order exDocHello exOpHi false).1 (by decide)⟩

/-- C9: a successful assignment through either document setter leaves a
selection that validates against the stored text: the selection setter
checks the incoming selection against the current text, and the text setter
re-validates the stored selection against the new text, so every state a
text-changed observer is notified of satisfies the invariant as well. -/
theorem C9_setters_validate (d : Doc) (t : List Char) (s : Sel) :
    ((setText d t).2.1 = true →
      validateB (setText d t).1.selection (setText d t).1.text = true)
    ∧ (∀ o ∈ (setText d t).2.2, validateB o.2 o.1 = true)
    ∧ (∀ d', setSelection d s = some d' →
        validateB d'.selection d'.text = true) := by
  refine ⟨?_, ?_, ?_⟩
  · intro h
    by_cases hv : validateB d.selection t
    · simp [setText, hv]
    · simp [setText, hv] at h
  · intro o ho
    by_cases hv : validateB d.selection t
    · simp [setText, hv] at ho
      subst ho
      simpa using hv
    · simp [setText, hv] at ho
  · intro d' hd'
    by_cases hv : validateB s d.text
    · simp [setSelection, hv] at hd'
      subst hd'
      simpa using hv
    · simp [setSelection, hv] at hd'

/-- C9 witness: the setter invariant evaluated on a concrete document,
text assignment and selection assignment. -/
theorem C9_witness :
    (setText exDocAB2 ['x']).2.1 = true
      ∧ validateB (setText exDocAB2 ['x']).1.selection
          (setText exDocAB2 ['x']).1.text = true :=
  ⟨by decide, (C9_setters_validate exDocAB2 ['x'] [(0, 1)]).1 (by decide)⟩

/-- C1 (amended): for a document `(T, S)` with a reachable selection and an
Operation constructed against it, if applying succeeds and additionally the
operation's `new_selection` validates against the original text `T` (the
undo's text assignment re-validates the then-stored selection — the applied
`new_selection` — against the restored text), then apply followed by undo
restores exactly text `T` and selection `S`. -/
theorem C1_undo_amended (d : Doc) (nc : Option (List (List Char)))
    (hv : strictValidB d.text d.selection = true)
    (hok : (opApply d (mkOp d nc)).ok = true)
    (hstale : ((newSelection (mkOp d nc).old_selection
        (mkOp d nc).new_content).all
          fun ns => validateB ns d.text) = true) :
    (opUndo (opApply d (mkOp d nc)).final (mkOp d nc)).ok = true
      ∧ (opUndo (opApply d (mkOp d nc)).final (mkOp d nc)).final.text
          = d.text
      ∧ (opUndo (opApply d (mkOp d nc)).final (mkOp d nc)).final.selection
          = d.selection := by
  have hv' := hv
  simp only [strictValidB, Bool.and_eq_true] at hv'
  obtain ⟨⟨hne, hchain⟩, hbdd⟩ := hv'
  have hne' : d.selection ≠ [] := by simpa using hne
  have holdsel : (mkOp d nc).old_selection = d.selection := by
    cases nc <;> rfl
  have holdcont : (mkOp d nc).old_content = contents d.text d.selection := by
    cases nc <;> rfl
  rw [holdsel] at hstale
  cases hns : newSelection d.selection (mkOp d nc).new_content with
  | none => simp [opApply, opCall, holdsel, hns] at hok
  | some nsel =>
    cases hrb : rebuildText d.text d.selection (mkOp d nc).new_content with
    | none => simp [opApply, opCall, holdsel, hns, hrb] at hok
    | some t' =>
      have hlen : d.selection.length ≤ (mkOp d nc).new_content.length := by
        have := (newSelection_some_length hns).2
        exact this
      have hsplice :
          t' = spliceFrom d.text 0 d.selection (mkOp d nc).new_content := by
        have h := hrb
        rw [rebuildText, partitionSel,
          rebuild_eq_splice d.selection _ 0 hchain hbdd (Nat.zero_le _) hlen]
          at h
        exact (Option.some_inj.mp h).symm
      have hlay : nsel = layoutSpec d.selection (mkOp d nc).new_content := by
        have h := hns
        rw [newSelection_eq_layout hne' hchain hlen] at h
        exact (Option.some_inj.mp h).symm
      by_cases hv1 : validateB d.selection t'
      · by_cases hv2 : validateB nsel t'
        · have hfin : (opApply d (mkOp d nc)).final
              = { d with text := t', selection := nsel } := by
            simp [opApply, opCall, holdsel, hns, hrb, setText, setSelection,
              hv1, hv2]
          have hstale' : validateB nsel d.text = true := by
            rw [hns] at hstale
            simpa using hstale
          have hub : rebuildText t' nsel (contents d.text d.selection)
              = some d.text := by
            rw [rebuildText, partitionSel, hlay, layoutSpec_eq_go, hsplice]
            have := rebuild_undo (t := d.text) d.selection
              ((mkOp d nc).new_content) 0 0 [] rfl hchain hbdd
              (Nat.zero_le _) hlen
            simpa [sliceT_whole] using this
          have hvald : validateB d.selection d.text = true :=
            strictValid_validate hv
          rw [hfin]
          simp [opUndo, opCall, holdsel, holdcont, hns, hub, setText,
            setSelection, hstale', hvald]
        · simp [opApply, opCall, holdsel, hns, hrb, setText, setSelection,
            hv1, hv2] at hok
      · simp [opApply, opCall, holdsel, hns, hrb, setText, hv1] at hok

/-- C1 counterexample: on text `"ab"` with the empty selection `(2,2)` at
the end of the text, inserting `"xyz"` applies successfully, but the undo's
text assignment re-validates the stored selection `(2,5)` against the
restored text `"ab"` and fails, leaving selection `(2,5)` instead of
`(2,2)`: apply followed by undo does not restore `(T, S)`. -/
theorem C1_cex :
    strictValidB exDocAB.text exDocAB.selection = true
      ∧ (opApply exDocAB exOpIns).ok = true
      ∧ ¬((opUndo (opApply exDocAB exOpIns).final exOpIns).ok = true
          ∧ (opUndo (opApply exDocAB exOpIns).final exOpIns).final.text
              = exDocAB.text
          ∧ (opUndo (opApply exDocAB exOpIns).final exOpIns).final.selection
              = exDocAB.selection) := by decide

/-- C1 witness: the amended undo law evaluated on replacing the selected
`"a"` of `"ab"` by `"XY"`. -/
theorem C1_witness :
    strictValidB exDocAB2.text exDocAB2.selection = true
      ∧ (opUndo (opApply exDocAB2 (mkOp exDocAB2 (some [['X', 'Y']]))).final
            (mkOp exDocAB2 (some [['X', 'Y']]))).final.text = exDocAB2.text
      ∧ (opUndo (opApply exDocAB2 (mkOp exDocAB2 (some [['X', 'Y']]))).final
            (mkOp exDocAB2 (some [['X', 'Y']]))).final.selection
          = exDocAB2.selection :=
  ⟨by decide,
    (C1_undo_amended exDocAB2 (some [['X', 'Y']]) (by decide) (by decide)
      (by decide)).2.1,
    (C1_undo_amended exDocAB2 (some [['X', 'Y']]) (by decide) (by decide)
      (by decide)).2.2⟩

/-! ## Claim theorems: TextView -/

theorem computeSelection_all_bounds {doc : Doc} {text : List Char}
    {m1 m2 : List Nat} {off : Nat} {r : Sel}
    (h : computeSelection doc text m1 m2 off = some r) :
    r.all (fun i => i.1 ≤ i.2 && i.2 ≤ text.length) = true := by
  unfold computeSelection at h
  split at h
  · split at h
    · simp at h
    · split at h
      · rename_i res hres hall
        injection h with h
        rw [← h]
        exact hall
      · simp at h
  · simp at h

/-- C8 (amended): for every successfully constructed TextView, every view
selection interval `(vbeg, vend)` satisfies
`0 ≤ vbeg ≤ vend ≤ len(view text)` (the source's post-condition check);
however, the end endpoint is computed as
`origpos_to_viewpos[end] - offset` rather than being translated through the
forward position map at `end - offset`, so for a nonzero offset the two
endpoints are not both translated through the map (see the
counterexample). -/
theorem C8_selection_bounds (doc : Doc) (w h off : Nat) (tv : TextView)
    (hok : for_screen doc w h off = some tv) :
    ∀ i ∈ tv.selection, i.1 ≤ i.2 ∧ i.2 ≤ tv.text.length := by
  unfold for_screen at hok
  split at hok
  · simp at hok
  · split at hok
    · simp at hok
    · rename_i t m1 m2 heq
      cases h2 : computeSelection doc t m1 m2 off with
      | none => rw [h2] at hok; simp at hok
      | some selv =>
        rw [h2] at hok
        cases h3 : computeHighlighting doc t m2 with
        | none => rw [h3] at hok; simp at hok
        | some hl =>
          rw [h3] at hok
          simp only [Option.some_inj] at hok
          have hall := computeSelection_all_bounds h2
          rw [List.all_eq_true] at hall
          intro i hi
          rw [← hok] at hi
          have := hall i hi
          simp only [Bool.and_eq_true, decide_eq_true_eq] at this
          exact ⟨this.1, by rw [← hok]; exact this.2⟩

/-- C8 counterexample: on document text `"abcde"` with selection
`[(1,2)]`, offset 1, width 1, height 3, and a shrinking concealment
replacing span `[2,4)` by `"Z"`, the TextView is constructed successfully
(every source assert passes; the view text is `"bZe"`); the visible
clamped interval is `(1,2)` and translating both endpoints through the
forward map would give
`(origpos_to_viewpos[1-1], origpos_to_viewpos[2-1]) = (0, 1)`, but the
constructed view selection is `[(0, 0)]` (the source computes the end as
`origpos_to_viewpos[2] - offset = 1 - 1`). -/
theorem C8_cex :
    (for_screen exDocShrink 1 3 1).map (fun tv => tv.selection)
        = some [(0, 0)]
      ∧ (for_screen exDocShrink 1 3 1).map
          (fun tv => (tv.origpos_to_viewpos.get? (1 - 1),
            tv.origpos_to_viewpos.get? (2 - 1)))
        = some (some 0, some 1)
      ∧ ((0, 0) : Ivl) ≠ (0, 1) := by decide

/-- C8 witness: the bound property evaluated on a concrete TextView. -/
theorem C8_witness :
    for_screen exDocPlain 2 2 0
        = some ⟨2, 2, 0, ['a', 'b', 'c', 'd'], [(0, 1)], [[], [], [], []],
            [0, 1, 2, 3, 4], [0, 1, 2, 3, 4, 4]⟩
      ∧ (1 : Nat) ≤ (⟨2, 2, 0, ['a', 'b', 'c', 'd'], [(0, 1)],
            [[], [], [], []], [0, 1, 2, 3, 4],
            [0, 1, 2, 3, 4, 4]⟩ : TextView).text.length :=
  ⟨by decide,
    (C8_selection_bounds exDocPlain 2 2 0 _ (by decide) (0, 1) (by decide)).2⟩

/-- Under the empty-remainder sentinel maps with offset 0 (the empty-text
case), the selection fold of `_compute_selection` never fails and only
ever produces `[]` or `[(0,0)]`: the sole visible intervals are the empty
interval at the boundary 0, and both of its endpoints translate to 0. -/
theorem selStep_fold_nil_text :
    ∀ (l : Sel) (acc : Sel), acc = [] ∨ acc = [(0, 0)] →
      ∃ res, l.foldl (selStep 0 0 [0] 0) (some acc) = some res
        ∧ (res = [] ∨ res = [(0, 0)]) := by
  intro l
  induction l with
  | nil => intro acc hacc; exact ⟨acc, rfl, hacc⟩
  | cons i rest ih =>
      intro acc hacc
      by_cases hv : (i.1 < 0 ∧ 0 < i.2) ∨ (i.1 = i.2 ∧ i.1 = 0)
          ∨ (i.1 = i.2 ∧ i.1 = 0)
      · have hi : i = (0, 0) := by
          obtain ⟨a, c⟩ := i
          rcases hv with ⟨h1, _⟩ | ⟨h1, h2⟩ | ⟨h1, h2⟩
          · exact absurd h1 (Nat.not_lt_zero _)
          · simp_all
          · simp_all
        subst hi
        rcases hacc with h | h <;> subst h
        · have hstep : selStep 0 0 [0] 0 (some []) (0, 0)
              = some [(0, 0)] := by decide
          rw [List.foldl_cons, hstep]
          exact ih [(0, 0)] (Or.inr rfl)
        · have hstep : selStep 0 0 [0] 0 (some [(0, 0)]) (0, 0)
              = some [(0, 0)] := by decide
          rw [List.foldl_cons, hstep]
          exact ih [(0, 0)] (Or.inr rfl)
      · have hstep : selStep 0 0 [0] 0 (some acc) i = some acc := by
          show (if (i.1 < 0 ∧ 0 < i.2) ∨ (i.1 = i.2 ∧ i.1 = 0)
              ∨ (i.1 = i.2 ∧ i.1 = 0) then _ else some acc) = some acc
          rw [if_neg hv]
        rw [List.foldl_cons, hstep]
        exact ih acc hacc

/-- C10 (amended): for every document and positive width and height,
`for_screen` with offset `len(doc.text)` is accepted and — whenever the
text is empty or the selection does not contain the interval `(0,0)` —
produces a TextView with empty view text and the two single-sentinel-entry
position maps `[0]`; in particular the original claim holds on every
empty-text document, whatever its selection. (If the text is nonempty and
the selection contains `(0,0)`, the sentinel maps make the selection-view
computation treat it as visible and build an invalid interval, so
construction fails; see the counterexample.) -/
theorem C10_offset_end (doc : Doc) (w h : Nat) (hw : w ≠ 0) (hh : h ≠ 0)
    (h00 : (0, 0) ∈ doc.selection → doc.text.length = 0) :
    ∃ selv, for_screen doc w h doc.text.length
      = some ⟨w, h, doc.text.length, [], selv, [], [0], [0]⟩ := by
  have hguard : ¬((w = 0 || h = 0
      || decide (doc.text.length < doc.text.length)) = true) := by
    simp [hw, hh]
  have hCTV : computeTextFromViewInterval doc w h doc.text.length
      = some ([], [0], [0]) := by
    unfold computeTextFromViewInterval
    simp
  have hselv : ∃ selv,
      computeSelection doc [] [0] [0] doc.text.length = some selv := by
    by_cases hmem : (0, 0) ∈ doc.selection
    · have h0 := h00 hmem
      rw [h0]
      obtain ⟨res, hres, hcase⟩ :=
        selStep_fold_nil_text doc.selection [] (Or.inl rfl)
      refine ⟨res, ?_⟩
      have hred : computeSelection doc [] [0] [0] 0
          = match doc.selection.foldl (selStep 0 0 [0] 0) (some []) with
            | none => none
            | some res =>
                if res.all (fun i => i.1 ≤ i.2 && i.2 ≤ (0 : Nat))
                then some res else none := rfl
      rw [hred, hres]
      rcases hcase with h | h <;> subst h <;> rfl
    · have hfold : ∀ (l : Sel), (0, 0) ∉ l →
          l.foldl (selStep 0 0 [0] doc.text.length) (some []) = some [] := by
        intro l
        induction l with
        | nil => intro _; rfl
        | cons i rest ih =>
            intro hm
            have hi : i ≠ (0, 0) := fun he => hm (he ▸ List.mem_cons_self _ _)
            have hcond : ¬((i.1 < 0 ∧ 0 < i.2) ∨ (i.1 = i.2 ∧ i.1 = 0)
                ∨ (i.1 = i.2 ∧ i.1 = 0)) := by
              rintro (⟨h1, _⟩ | ⟨h1, h2⟩ | ⟨h1, h2⟩) <;>
                first
                  | exact absurd h1 (Nat.not_lt_zero _)
                  | exact hi (by
                      obtain ⟨a, c⟩ := i
                      simp_all)
            have hstep : selStep 0 0 [0] doc.text.length (some []) i
                = some [] := by
              show (if (i.1 < 0 ∧ 0 < i.2) ∨ (i.1 = i.2 ∧ i.1 = 0)
                  ∨ (i.1 = i.2 ∧ i.1 = 0) then _ else some ([] : Sel))
                = some []
              rw [if_neg hcond]
            simp only [List.foldl_cons, hstep]
            exact ih (fun h2m => hm (List.mem_cons_of_mem _ h2m))
      refine ⟨[], ?_⟩
      have hred : computeSelection doc [] [0] [0] doc.text.length
          = match doc.selection.foldl
              (selStep 0 0 [0] doc.text.length) (some []) with
            | none => none
            | some res =>
                if res.all (fun i => i.1 ≤ i.2 && i.2 ≤ (0 : Nat))
                then some res else none := rfl
      rw [hred, hfold doc.selection hmem]
      rfl
  obtain ⟨selv, hselv⟩ := hselv
  refine ⟨selv, ?_⟩
  unfold for_screen
  rw [if_neg hguard, hCTV]
  have hred2 : (match (some (([] : List Char), ([0] : List Nat),
        ([0] : List Nat)) : Option (List Char × List Nat × List Nat)) with
      | none => none
      | some (t, m1, m2) =>
          match computeSelection doc t m1 m2 doc.text.length with
          | none => none
          | some selv2 =>
              match computeHighlighting doc t m2 with
              | none => none
              | some hl => some (⟨w, h, doc.text.length, t, selv2, hl, m1,
                  m2⟩ : TextView))
      = match computeSelection doc [] [0] [0] doc.text.length with
        | none => none
        | some selv2 => some (⟨w, h, doc.text.length, [], selv2, [], [0],
            [0]⟩ : TextView) := rfl
  rw [hred2, hselv]

/-- C10 counterexample: on the document with text `"a"` and selection
`[(0,0)]`, `for_screen doc 1 1 1` (offset = text length) does not produce a
TextView at all: the empty-remainder sentinel maps report the visible
original range as `[0,0)`, the empty interval `(0,0)` is treated as visible
at that boundary, and its end is translated to
`viewmap[0] - offset = -1 < 0`, an invalid interval. -/
theorem C10_cex : for_screen exDocOneChar 1 1 1 = none := by decide

/-- C10 witness: the amended claim at the empty-text document whose
selection is the empty interval at 0 — the family where the selection does
contain `(0,0)` and construction nevertheless succeeds. -/
theorem C10_witness :
    ((0, 0) ∈ exDocNilSel.selection → exDocNilSel.text.length = 0)
      ∧ ∃ selv, for_screen exDocNilSel 1 1 exDocNilSel.text.length
          = some ⟨1, 1, exDocNilSel.text.length, [], selv, [], [0], [0]⟩ :=
  ⟨by decide,
    C10_offset_end exDocNilSel 1 1 (by decide) (by decide) (by decide)⟩

theorem get?_append_ge {α : Type} {l1 l2 : List α} {n : Nat}
    (h : l1.length ≤ n) :
    (l1 ++ l2).get? n = l2.get? (n - l1.length) := by
  rw [List.get?_eq_getElem?, List.get?_eq_getElem?,
    List.getElem?_append_right h]

theorem get?_replicate_lt {α : Type} {a : α} {n i : Nat} (h : i < n) :
    (List.replicate n a).get? i = some a := by
  rw [List.get?_eq_getElem?]
  simp [List.getElem?_replicate, h]

theorem substChain_mem :
    ∀ (l : List (Ivl × List Char)) (pos lim : Nat),
      substChainB pos lim l = true →
      ∀ sb se r, ((sb, se), r) ∈ l → pos ≤ sb ∧ sb ≤ se ∧ se ≤ lim := by
  intro l
  induction l with
  | nil => intro pos lim _ sb se r hm; simp at hm
  | cons x rest ih =>
      intro pos lim hch sb se r hm
      obtain ⟨⟨a, c⟩, s⟩ := x
      simp only [substChainB, Bool.and_eq_true, decide_eq_true_eq] at hch
      obtain ⟨⟨⟨h1, h2⟩, h3⟩, h4⟩ := hch
      rcases List.mem_cons.mp hm with he | hm'
      · injection he with he1 he2
        injection he1 with ha hc
        subst ha; subst hc
        exact ⟨h1, h2, h3⟩
      · have := ih c lim h4 sb se r hm'
        exact ⟨le_trans h1 (le_trans h2 this.1), this.2⟩

theorem walk_maps (otext : List Char) (obeg sample : Nat) :
    ∀ (fuel : Nat) (substs : List (Ivl × List Char)) (opos vpos : Nat)
      (vt : List Char) (f b : List Nat),
      walkGo otext obeg sample fuel opos vpos substs = some (vt, f, b) →
      substChainB opos (obeg + sample) substs = true →
      ∀ sbeg send repl, ((sbeg, send), repl) ∈ substs → sbeg < send →
      ∃ v0, vpos ≤ v0 ∧ f.get? (sbeg - opos) = some v0
        ∧ (∀ p, sbeg ≤ p → p < send → f.get? (p - opos) = some v0)
        ∧ (∀ q, v0 ≤ q → q < v0 + repl.length →
            b.get? (q - vpos) = some sbeg) := by
  intro fuel
  induction fuel with
  | zero =>
      intro substs opos vpos vt f b hw
      exact absurd hw (by simp [walkGo])
  | succ fuel ih =>
      intro substs opos vpos vt f b hw hch sbeg send repl hmem hlt
      have hbounds := substChain_mem substs opos (obeg + sample) hch
        sbeg send repl hmem
      by_cases hop : opos < obeg + sample
      · match substs, hmem with
        | ((s1, s2), r1) :: rest, hmem =>
          simp only [substChainB, Bool.and_eq_true, decide_eq_true_eq] at hch
          obtain ⟨⟨⟨hc1, hc2⟩, hc3⟩, hc4⟩ := hch
          by_cases hlt1 : opos < s1
          · -- copy toward the substitution
            simp only [walkGo, if_pos hop, if_pos hlt1] at hw
            by_cases h0 : min (s1 - opos) (sample - vpos) = 0
            · rw [if_pos h0] at hw
              exact absurd hw (by simp)
            · rw [if_neg h0] at hw
              set ol := min (s1 - opos) (sample - vpos) with hol
              have holpos : 1 ≤ ol := Nat.one_le_iff_ne_zero.mpr h0
              have hols1 : opos + ol ≤ s1 := by
                have : ol ≤ s1 - opos := min_le_left _ _
                omega
              cases hrec : walkGo otext obeg sample fuel (opos + ol)
                  (vpos + ol) (((s1, s2), r1) :: rest) with
              | none => rw [hrec] at hw; exact absurd hw (by simp)
              | some w' =>
                obtain ⟨vt', f', b'⟩ := w'
                rw [hrec] at hw
                simp only [Option.some_inj, Prod.mk.injEq] at hw
                obtain ⟨hvt, hf, hb⟩ := hw
                have hch' : substChainB (opos + ol) (obeg + sample)
                    (((s1, s2), r1) :: rest) = true := by
                  simp only [substChainB, Bool.and_eq_true,
                    decide_eq_true_eq]
                  exact ⟨⟨⟨hols1, hc2⟩, hc3⟩, hc4⟩
                obtain ⟨v0, hv0, hf0, hfall, hball⟩ := ih _ _ _ _ _ _ hrec
                  hch' sbeg send repl hmem hlt
                have hsbeg : opos + ol ≤ sbeg :=
                  (substChain_mem _ _ _ hch' sbeg send repl hmem).1
                refine ⟨v0, by omega, ?_, ?_, ?_⟩
                · rw [← hf, get?_append_ge (by simp; omega)]
                  rw [show sbeg - opos - (List.range' vpos ol).length
                      = sbeg - (opos + ol) from by simp; omega]
                  exact hf0
                · intro p hp1 hp2
                  rw [← hf, get?_append_ge (by simp; omega)]
                  rw [show p - opos - (List.range' vpos ol).length
                      = p - (opos + ol) from by simp; omega]
                  exact hfall p hp1 hp2
                · intro q hq1 hq2
                  rw [← hb, get?_append_ge (by simp; omega)]
                  rw [show q - vpos - (List.range' opos ol).length
                      = q - (vpos + ol) from by simp; omega]
                  exact hball q hq1 hq2
          · -- consume the head substitution
            have hos1 : opos = s1 := by omega
            simp only [walkGo, if_pos hop, if_neg hlt1] at hw
            cases hrec : walkGo otext obeg sample fuel (opos + (s2 - s1))
                (vpos + r1.length) rest with
            | none => rw [hrec] at hw; exact absurd hw (by simp)
            | some w' =>
              obtain ⟨vt', f', b'⟩ := w'
              rw [hrec] at hw
              simp only [Option.some_inj, Prod.mk.injEq] at hw
              obtain ⟨hvt, hf, hb⟩ := hw
              rcases List.mem_cons.mp hmem with he | hm'
              · -- the target is the head
                injection he with he1 he2
                injection he1 with ha hc
                subst ha; subst hc; subst he2
                refine ⟨vpos, le_refl _, ?_, ?_, ?_⟩
                · rw [← hf, List.get?_eq_getElem?,
                    List.getElem?_append_left (by simp [hos1]; omega),
                    List.getElem?_replicate]
                  simp [hos1]
                  omega
                · intro p hp1 hp2
                  rw [← hf, List.get?_eq_getElem?,
                    List.getElem?_append_left (by simp; omega),
                    List.getElem?_replicate]
                  simp
                  omega
                · intro q hq1 hq2
                  rw [← hb, List.get?_eq_getElem?,
                    List.getElem?_append_left (by simp; omega),
                    List.getElem?_replicate]
                  simp [hos1]
                  omega
              · -- the target is further right
                have hch' : substChainB (opos + (s2 - s1)) (obeg + sample)
                    rest = true := by
                  rw [show opos + (s2 - s1) = s2 from by omega]
                  exact hc4
                obtain ⟨v0, hv0, hf0, hfall, hball⟩ := ih _ _ _ _ _ _ hrec
                  hch' sbeg send repl hm' hlt
                have hsbeg : opos + (s2 - s1) ≤ sbeg :=
                  (substChain_mem _ _ _ hch' sbeg send repl hm').1
                refine ⟨v0, by omega, ?_, ?_, ?_⟩
                · rw [← hf, get?_append_ge (by simp; omega)]
                  rw [show sbeg - opos - (List.replicate (s2 - s1)
                        vpos).length = sbeg - (opos + (s2 - s1)) from by
                      simp; omega]
                  exact hf0
                · intro p hp1 hp2
                  rw [← hf, get?_append_ge (by simp; omega)]
                  rw [show p - opos - (List.replicate (s2 - s1)
                        vpos).length = p - (opos + (s2 - s1)) from by
                      simp; omega]
                  exact hfall p hp1 hp2
                · intro q hq1 hq2
                  rw [← hb, get?_append_ge (by simp; omega)]
                  rw [show q - vpos - (List.replicate r1.length
                        opos).length = q - (vpos + r1.length) from by
                      simp; omega]
                  exact hball q hq1 hq2
      · omega

/-- C7: in the substitution walk of `_compute_text_from_orig_interval`, for
every substitution replacing a non-empty original span `[sbeg, send)` by a
replacement of length `vlen`, drawn from a sorted, non-overlapping
substitution list contained in the sampled range `[obeg, obeg + sample)`,
the constructed forward map assigns one and the same view position to every
original position in `[sbeg, send)` (the map is indexed by original
position minus `obeg`), and the constructed backward map assigns `sbeg` to
every view position inside the replacement. -/
theorem C7_conceal_maps (otext : List Char) (obeg sample : Nat)
    (substs : List (Ivl × List Char)) (vt : List Char) (f b : List Nat)
    (hw : walkSubsts otext obeg sample substs = some (vt, f, b))
    (hch : substChainB obeg (obeg + sample) substs = true)
    (sbeg send : Nat) (repl : List Char)
    (hmem : ((sbeg, send), repl) ∈ substs) (hlt : sbeg < send) :
    ∃ v0, f.get? (sbeg - obeg) = some v0
      ∧ (∀ p, sbeg ≤ p → p < send → f.get? (p - obeg) = some v0)
      ∧ (∀ q, v0 ≤ q → q < v0 + repl.length → b.get? q = some sbeg) := by
  obtain ⟨v0, _, hf0, hfall, hball⟩ := walk_maps otext obeg sample
    (sample + substs.length + 1) substs obeg 0 vt f b hw hch
    sbeg send repl hmem hlt
  exact ⟨v0, hf0, hfall, fun q hq1 hq2 => by
    have := hball q hq1 hq2
    simpa using this⟩

/-- C7 witness: the map property evaluated on text `"abcde"` with the span
`[1,3)` concealed by `"Z"`. -/
theorem C7_witness :
    walkSubsts ['a', 'b', 'c', 'd', 'e'] 0 5 [((1, 3), ['Z'])]
        = some (['a', 'Z', 'd', 'e'], [0, 1, 1, 2, 3], [0, 1, 3, 4])
      ∧ ∃ v0, ([0, 1, 1, 2, 3] : List Nat).get? (1 - 0) = some v0
          ∧ (∀ p, 1 ≤ p → p < 3 →
              ([0, 1, 1, 2, 3] : List Nat).get? (p - 0) = some v0)
          ∧ (∀ q, v0 ≤ q → q < v0 + (['Z'] : List Char).length →
              ([0, 1, 3, 4] : List Nat).get? q = some 1) :=
  ⟨by decide,
    C7_conceal_maps ['a', 'b', 'c', 'd', 'e'] 0 5 [((1, 3), ['Z'])]
      ['a', 'Z', 'd', 'e'] [0, 1, 1, 2, 3] [0, 1, 3, 4] (by decide)
      (by decide) 1 3 ['Z'] (by decide) (by decide)⟩

theorem lt_ceilDiv_iff {w n i : Nat} (hw : w ≠ 0) :
    i < ceilDiv n w ↔ w * i < n := by
  have e1 : (i + 1) * w = w * i + w := by ring
  unfold ceilDiv
  constructor
  · intro h
    have h2 : i + 1 ≤ (n + w - 1) / w := h
    rw [Nat.le_div_iff_mul_le (by omega)] at h2
    omega
  · intro h
    have h2 : (i + 1) * w ≤ n + w - 1 := by omega
    have : i + 1 ≤ (n + w - 1) / w := by
      rw [Nat.le_div_iff_mul_le (by omega)]
      exact h2
    omega

theorem ceilDiv_eq_exact {w e h : Nat} (h1 : w * (h - 1) < e)
    (h2 : e ≤ w * h) (hh : 1 ≤ h) : ceilDiv e w = h := by
  have hw : w ≠ 0 := by
    intro h0
    subst h0
    simp at h2
    omega
  have e1 : (h + 1) * w = w * h + w := by ring
  have e2 : h * w = w * h := by ring
  have e3 : w * h = w * (h - 1) + w := by
    have h4 : h = (h - 1) + 1 := by omega
    calc w * h = w * ((h - 1) + 1) := by rw [← h4]
    _ = w * (h - 1) + w := Nat.mul_succ w (h - 1)
  unfold ceilDiv
  apply Nat.div_eq_of_lt_le
  · omega
  · omega

theorem splitlinesAux_ne_nil (t : List Char) : splitlinesAux t ≠ [] := by
  induction t with
  | nil => simp [splitlinesAux]
  | cons c r ih =>
      simp only [splitlinesAux]
      by_cases hc : c = '\n'
      · simp [hc]
      · rw [if_neg hc]
        cases h : splitlinesAux r with
        | nil => simp
        | cons l ls => simp

theorem splitlinesAux_append_newline {l r : List Char} (hl : '\n' ∉ l) :
    splitlinesAux (l ++ '\n' :: r) = l :: splitlinesAux r := by
  induction l with
  | nil => simp [splitlinesAux]
  | cons c l' ih =>
      have hc : c ≠ '\n' := fun h => hl (h ▸ List.mem_cons_self _ _)
      have hl' : '\n' ∉ l' := fun h => hl (List.mem_cons_of_mem _ h)
      rw [List.cons_append]
      rw [show splitlinesAux (c :: (l' ++ '\n' :: r))
          = (match splitlinesAux (l' ++ '\n' :: r) with
             | [] => [[c]]
             | l :: ls => (c :: l) :: ls) from by
        rw [splitlinesAux, if_neg hc]]
      rw [ih hl']

theorem splitlinesAux_no_newline {l : List Char} (hl : '\n' ∉ l) :
    splitlinesAux l = [l] := by
  induction l with
  | nil => rfl
  | cons c l' ih =>
      have hc : c ≠ '\n' := fun h => hl (h ▸ List.mem_cons_self _ _)
      have hl' : '\n' ∉ l' := fun h => hl (List.mem_cons_of_mem _ h)
      rw [show splitlinesAux (c :: l')
          = (match splitlinesAux l' with
             | [] => [[c]]
             | l :: ls => (c :: l) :: ls) from by
        rw [splitlinesAux, if_neg hc]]
      rw [ih hl']

theorem splitlines_no_newline {l : List Char} (hl : '\n' ∉ l) (hne : l ≠ []) :
    splitlines l = [l] := by
  unfold splitlines
  rw [if_neg (by simpa using hne), splitlinesAux_no_newline hl]
  simp [hne]

theorem splitlines_append_newline {l r : List Char} (hl : '\n' ∉ l) :
    splitlines (l ++ '\n' :: r) = l :: splitlines r := by
  by_cases hr : r = []
  · subst hr
    unfold splitlines
    rw [if_neg (by simp), splitlinesAux_append_newline hl]
    simp [splitlinesAux]
  · have hLHS : splitlines (l ++ '\n' :: r)
        = if (l :: splitlinesAux r).getLast? = some []
          then (l :: splitlinesAux r).dropLast
          else l :: splitlinesAux r := by
      unfold splitlines
      rw [if_neg (by simp), splitlinesAux_append_newline hl]
    have hRHS : splitlines r
        = if (splitlinesAux r).getLast? = some []
          then (splitlinesAux r).dropLast
          else splitlinesAux r := by
      unfold splitlines
      rw [if_neg (by simpa using hr)]
    obtain ⟨p, ps', h⟩ : ∃ p ps', splitlinesAux r = p :: ps' := by
      cases h : splitlinesAux r with
      | nil => exact absurd h (splitlinesAux_ne_nil r)
      | cons p ps' => exact ⟨p, ps', rfl⟩
    rw [hLHS, hRHS, h, List.getLast?_cons_cons]
    by_cases hlast : (p :: ps').getLast? = some []
    · rw [if_pos hlast, if_pos hlast]
      cases ps' with
      | nil => simp at hlast; simp [hlast]
      | cons q qs => simp [List.dropLast]
    · rw [if_neg hlast, if_neg hlast]

theorem newline_split (t : List Char) :
    '\n' ∉ t ∨ ∃ l r, t = l ++ '\n' :: r ∧ '\n' ∉ l := by
  induction t with
  | nil => left; simp
  | cons c t' ih =>
      by_cases hc : c = '\n'
      · right
        exact ⟨[], t', by simp [hc], by simp⟩
      · rcases ih with h | ⟨l, r, he, hl⟩
        · left
          intro hmem
          rcases List.mem_cons.mp hmem with h1 | h1
          · exact hc h1.symm
          · exact h h1
        · right
          refine ⟨c :: l, r, by simp [he], ?_⟩
          intro hmem
          rcases List.mem_cons.mp hmem with h1 | h1
          · exact hc h1.symm
          · exact hl h1

theorem ceilDiv_len_zero (w : Nat) : ceilDiv 0 w = 0 := by
  unfold ceilDiv
  rcases Nat.eq_zero_or_pos w with hw | hw
  · subst hw; rfl
  · exact Nat.div_eq_of_lt (by omega)

theorem chunksOf_length (w : Nat) (l : List Char) :
    (chunksOf w l).length = ceilDiv l.length w := by
  simp [chunksOf]

theorem cwl_nil (w : Nat) : count_wrapped_lines [] w = 0 := rfl

theorem cwl_no_newline {l : List Char} (hl : '\n' ∉ l) (w : Nat) :
    count_wrapped_lines l w = ceilDiv l.length w := by
  by_cases hne : l = []
  · subst hne
    rw [cwl_nil, List.length_nil, ceilDiv_len_zero]
  · unfold count_wrapped_lines textAsLines
    rw [splitlines_no_newline hl hne]
    simp [chunksOf_length]

theorem cwl_append_newline {l r : List Char} (hl : '\n' ∉ l) (w : Nat) :
    count_wrapped_lines (l ++ '\n' :: r) w
      = ceilDiv l.length w + count_wrapped_lines r w := by
  unfold count_wrapped_lines textAsLines
  rw [splitlines_append_newline hl]
  simp [chunksOf_length]

theorem chunkLine_length (w off len : Nat) :
    (chunkLine w off len).length = ceilDiv len w := by
  simp [chunkLine]

theorem chunkLine_get? {w off len i : Nat} (h : i < ceilDiv len w) :
    (chunkLine w off len).get? i
      = some (off + w * i, off + min (w * (i + 1)) len) := by
  unfold chunkLine
  rw [List.get?_eq_getElem?]
  simp [List.getElem?_map, List.getElem?_range, h]

theorem ciGo_shift (w : Nat) :
    ∀ (ls : List (List Char)) (off : Nat),
      chunkIntervalsGo w off ls
        = (chunkIntervalsGo w 0 ls).map (fun c => (c.1 + off, c.2 + off)) := by
  intro ls
  induction ls with
  | nil => intro off; rfl
  | cons l ls ih =>
      intro off
      show chunkLine w off l.length ++ chunkIntervalsGo w (off + l.length + 1) ls
        = ((chunkLine w 0 l.length
            ++ chunkIntervalsGo w (0 + l.length + 1) ls).map
              (fun c => (c.1 + off, c.2 + off)))
      rw [List.map_append]
      congr 1
      · unfold chunkLine
        rw [List.map_map]
        congr 1
        funext i
        simp only [Function.comp, Prod.mk.injEq]
        omega
      · rw [ih (off + l.length + 1), ih (0 + l.length + 1), List.map_map]
        congr 1
        funext c
        simp only [Function.comp, Prod.mk.injEq]
        omega

theorem ci_no_newline {t : List Char} (hl : '\n' ∉ t) (w : Nat) :
    chunkIntervals t w = chunkLine w 0 t.length := by
  by_cases hne : t = []
  · subst hne
    show ([] : List (Nat × Nat)) = chunkLine w 0 0
    unfold chunkLine
    rw [ceilDiv_len_zero]
    rfl
  · unfold chunkIntervals
    rw [splitlines_no_newline hl hne]
    show chunkLine w 0 t.length ++ chunkIntervalsGo w (0 + t.length + 1) [] = _
    simp [chunkIntervalsGo]

theorem ci_append_newline {l r : List Char} (hl : '\n' ∉ l) (w : Nat) :
    chunkIntervals (l ++ '\n' :: r) w
      = chunkLine w 0 l.length
        ++ (chunkIntervals r w).map
          (fun c => (c.1 + (l.length + 1), c.2 + (l.length + 1))) := by
  unfold chunkIntervals
  rw [splitlines_append_newline hl]
  show chunkLine w 0 l.length ++ chunkIntervalsGo w (0 + l.length + 1)
      (splitlines r) = _
  congr 1
  rw [ciGo_shift w (splitlines r) (0 + l.length + 1)]
  congr 1
  funext c
  simp only [Prod.mk.injEq]
  omega

theorem ci_length (t : List Char) (w : Nat) :
    (chunkIntervals t w).length = count_wrapped_lines t w := by
  unfold chunkIntervals count_wrapped_lines textAsLines
  generalize splitlines t = ls
  induction ls with
  | nil => rfl
  | cons l ls ih =>
      show (chunkLine w 0 l.length ++ chunkIntervalsGo w (0 + l.length + 1)
        ls).length = _
      rw [List.length_append, chunkLine_length,
        ciGo_shift w ls (0 + l.length + 1)]
      simp only [List.length_map]
      have h2 : (chunkIntervalsGo w 0 ls).length
          = (ls.flatMap (chunksOf w)).length := by
        simpa using ih
      rw [h2]
      simp [chunksOf_length]

theorem get?_append_lt {α : Type} {l1 l2 : List α} {n : Nat}
    (h : n < l1.length) : (l1 ++ l2).get? n = l1.get? n := by
  rw [List.get?_eq_getElem?, List.get?_eq_getElem?,
    List.getElem?_append_left h]

theorem take_chunkEnd_count {w : Nat} (hw : w ≠ 0) :
    ∀ (n : Nat) (t : List Char), t.length ≤ n → ∀ (h : Nat), 1 ≤ h →
      h ≤ count_wrapped_lines t w → ∀ s e,
      (chunkIntervals t w).get? (h - 1) = some (s, e) →
      count_wrapped_lines (t.take e) w = h := by
  intro n
  induction n with
  | zero =>
      intro t hlen h hh hcount s e _
      have ht : t = [] := List.length_eq_zero.mp (Nat.le_zero.mp hlen)
      subst ht
      rw [cwl_nil] at hcount
      omega
  | succ n ih =>
      intro t hlen h hh hcount s e hget
      rcases newline_split t with hnl | ⟨l, r, he, hl⟩
      · rw [ci_no_newline hnl w] at hget
        rw [cwl_no_newline hnl w] at hcount
        have hidx : h - 1 < ceilDiv t.length w := by omega
        rw [chunkLine_get? hidx] at hget
        simp only [Option.some_inj, Prod.mk.injEq] at hget
        obtain ⟨hs, he2⟩ := hget
        have hh1 : h - 1 + 1 = h := by omega
        rw [hh1] at he2
        have hwlt : w * (h - 1) < t.length := (lt_ceilDiv_iff hw).mp hidx
        have hwh : w * (h - 1) < w * h := by
          have h1 := Nat.mul_le_mul (le_refl w) (show h - 1 + 1 ≤ h from by omega)
          have h2 : w * (h - 1 + 1) = w * (h - 1) + w := Nat.mul_succ _ _
          omega
        have he3 : e = min (w * h) t.length := by omega
        have hel : e ≤ t.length := by omega
        have hepos : w * (h - 1) < e := by omega
        have hnl' : '\n' ∉ t.take e :=
          fun hm => hnl (List.take_subset e t hm)
        rw [cwl_no_newline hnl' w, List.length_take]
        rw [show min e t.length = e from by omega]
        exact ceilDiv_eq_exact hepos (by omega) hh
      · subst he
        rw [ci_append_newline hl w] at hget
        rw [cwl_append_newline hl w] at hcount
        by_cases hcase : h ≤ ceilDiv l.length w
        · have hidx : h - 1 < (chunkLine w 0 l.length).length := by
            rw [chunkLine_length]
            omega
          rw [get?_append_lt hidx] at hget
          rw [chunkLine_get? (by rw [chunkLine_length] at hidx; exact hidx)]
            at hget
          simp only [Option.some_inj, Prod.mk.injEq] at hget
          obtain ⟨hs, he2⟩ := hget
          have hh1 : h - 1 + 1 = h := by omega
          rw [hh1] at he2
          have hidx' : h - 1 < ceilDiv l.length w := by omega
          have hwlt : w * (h - 1) < l.length := (lt_ceilDiv_iff hw).mp hidx'
          have hwh : w * (h - 1) < w * h := by
            have h1 := Nat.mul_le_mul (le_refl w)
              (show h - 1 + 1 ≤ h from by omega)
            have h2 : w * (h - 1 + 1) = w * (h - 1) + w := Nat.mul_succ _ _
            omega
          have hel : e ≤ l.length := by omega
          have hepos : w * (h - 1) < e := by omega
          rw [List.take_append_eq_append_take,
            show e - l.length = 0 from by omega]
          simp only [List.take_zero, List.append_nil]
          have hnl' : '\n' ∉ l.take e :=
            fun hm => hl (List.take_subset e l hm)
          rw [cwl_no_newline hnl' w, List.length_take,
            show min e l.length = e from by omega]
          exact ceilDiv_eq_exact hepos (by omega) hh
        · have hlen1 : (chunkLine w 0 l.length).length ≤ h - 1 := by
            rw [chunkLine_length]
            omega
          rw [get?_append_ge hlen1, chunkLine_length] at hget
          rw [List.get?_eq_getElem?, List.getElem?_map] at hget
          cases hget2 : (chunkIntervals r w).get? (h - 1 - ceilDiv l.length w)
            with
          | none =>
              rw [List.get?_eq_getElem?] at hget2
              rw [hget2] at hget
              simp at hget
          | some c =>
              obtain ⟨s', e'⟩ := c
              rw [List.get?_eq_getElem?] at hget2
              rw [hget2] at hget
              simp only [Option.map_some', Option.some_inj,
                Prod.mk.injEq] at hget
              obtain ⟨hs, he2⟩ := hget
              have hrlen : r.length ≤ n := by
                rw [List.length_append, List.length_cons] at hlen
                omega
              have hr_take := ih r hrlen (h - ceilDiv l.length w) (by omega)
                (by omega) s' e'
                (by
                  rw [show h - ceilDiv l.length w - 1
                      = h - 1 - ceilDiv l.length w from by omega,
                    List.get?_eq_getElem?]
                  exact hget2)
              rw [← he2, List.take_append_eq_append_take,
                List.take_of_length_le (show l.length ≤ e' + (l.length + 1)
                  from by omega),
                show e' + (l.length + 1) - l.length = e' + 1 from by omega,
                List.take_succ_cons, cwl_append_newline hl w, hr_take]
              omega

theorem chunkLine_mem_pos {w off len : Nat} (hw : w ≠ 0) :
    ∀ c ∈ chunkLine w off len, c.1 < c.2 := by
  intro c hc
  unfold chunkLine at hc
  rw [List.mem_map] at hc
  obtain ⟨i, hi, hc⟩ := hc
  rw [List.mem_range] at hi
  have h1 : w * i < len := (lt_ceilDiv_iff hw).mp hi
  have h2 : w * i < w * (i + 1) := by
    have h3 : w * (i + 1) = w * i + w := Nat.mul_succ _ _
    omega
  subst hc
  simp only [lt_min_iff]
  omega

theorem chunkLine_mem_end_le {w off len : Nat} :
    ∀ c ∈ chunkLine w off len, c.2 ≤ off + len := by
  intro c hc
  unfold chunkLine at hc
  rw [List.mem_map] at hc
  obtain ⟨i, _, hc⟩ := hc
  subst hc
  simp only []
  omega

theorem ciGo_mem_pos {w : Nat} (hw : w ≠ 0) :
    ∀ (ls : List (List Char)) (off : Nat) (c : Nat × Nat),
      c ∈ chunkIntervalsGo w off ls → c.1 < c.2 := by
  intro ls
  induction ls with
  | nil => intro off c hc; simp [chunkIntervalsGo] at hc
  | cons l ls ih =>
      intro off c hc
      rcases List.mem_append.mp hc with h | h
      · exact chunkLine_mem_pos hw c h
      · exact ih _ c h

theorem ciGo_start_ge {w : Nat} :
    ∀ (ls : List (List Char)) (off : Nat) (c : Nat × Nat),
      c ∈ chunkIntervalsGo w off ls → off ≤ c.1 := by
  intro ls
  induction ls with
  | nil => intro off c hc; simp [chunkIntervalsGo] at hc
  | cons l ls ih =>
      intro off c hc
      rcases List.mem_append.mp hc with h | h
      · unfold chunkLine at h
        rw [List.mem_map] at h
        obtain ⟨i, _, hc2⟩ := h
        subst hc2
        simp only []
        omega
      · have := ih _ c h
        omega

theorem chunkLine_chain {w off len : Nat} :
    List.Chain' (fun a b => a.2 ≤ b.1) (chunkLine w off len) := by
  unfold chunkLine
  rw [List.chain'_map]
  cases hk : ceilDiv len w with
  | zero => simp
  | succ k =>
      rw [List.chain'_range_succ]
      intro m _
      have h1 : w * (m + 1) ⊓ len ≤ w * (m + 1) := min_le_left _ _
      have h2 : w * m.succ = w * (m + 1) := rfl
      simp only [h2]
      omega

theorem ciGo_chain {w : Nat} :
    ∀ (ls : List (List Char)) (off : Nat),
      List.Chain' (fun a b => a.2 ≤ b.1) (chunkIntervalsGo w off ls) := by
  intro ls
  induction ls with
  | nil => intro off; simp [chunkIntervalsGo]
  | cons l ls ih =>
      intro off
      show List.Chain' _ (chunkLine w off l.length
        ++ chunkIntervalsGo w (off + l.length + 1) ls)
      rw [List.chain'_append]
      refine ⟨chunkLine_chain, ih _, ?_⟩
      intro x hx y hy
      have hx' : x ∈ chunkLine w off l.length :=
        List.mem_of_mem_getLast? hx
      have hy' : y ∈ chunkIntervalsGo w (off + l.length + 1) ls :=
        List.mem_of_mem_head? hy
      have h1 := chunkLine_mem_end_le x hx'
      have h2 := ciGo_start_ge ls (off + l.length + 1) y hy'
      omega

theorem chain_get?_le {cs : List (Nat × Nat)}
    (hchain : List.Chain' (fun a b => a.2 ≤ b.1) cs)
    (hpos : ∀ c ∈ cs, c.1 < c.2) :
    ∀ (j i : Nat) (si ei sj ej : Nat), i < j →
      cs.get? i = some (si, ei) → cs.get? j = some (sj, ej) → ei ≤ sj := by
  have hstep : ∀ (k : Nat) (h : k < cs.length - 1),
      (cs.get ⟨k, by omega⟩).2 ≤ (cs.get ⟨k + 1, by omega⟩).1 :=
    List.chain'_iff_get.mp hchain
  have hstep' : ∀ (k : Nat) (a b : Nat × Nat), cs.get? k = some a →
      cs.get? (k + 1) = some b → a.2 ≤ b.1 := by
    intro k a b ha hb
    have hklen : k + 1 < cs.length := (List.get?_eq_some.mp hb).1
    have hk1 : k < cs.length - 1 := by omega
    have hs := hstep k hk1
    rw [List.get?_eq_get (show k < cs.length from by omega)] at ha
    rw [List.get?_eq_get hklen] at hb
    injection ha with ha
    injection hb with hb
    rw [← ha, ← hb]
    exact hs
  intro j
  induction j with
  | zero => intro i si ei sj ej hij; omega
  | succ j ihj =>
      intro i si ei sj ej hij hgi hgj
      by_cases hij' : i = j
      · subst hij'
        simpa using hstep' i (si, ei) (sj, ej) hgi hgj
      · have hij2 : i < j := by omega
        have hjlen : j + 1 < cs.length := (List.get?_eq_some.mp hgj).1
        have hjlt : j < cs.length := by omega
        obtain ⟨cj, hcj⟩ : ∃ cj, cs.get? j = some cj :=
          ⟨cs.get ⟨j, hjlt⟩, List.get?_eq_get hjlt⟩
        obtain ⟨sj', ej'⟩ := cj
        have h1 := ihj i si ei sj' ej' hij2 hgi hcj
        have h2 := hpos (sj', ej') (List.get?_mem hcj)
        have h3 := hstep' j (sj', ej') (sj, ej) hcj hgj
        simp only [] at h2 h3
        omega

theorem find?_locate {α : Type} :
    ∀ (cs : List α) (p : α → Bool) (n : Nat) (x : α),
      cs.get? n = some x → p x = true →
      (∀ i y, i < n → cs.get? i = some y → p y = false) →
      cs.find? p = some x := by
  intro cs
  induction cs with
  | nil => intro p n x hg; simp at hg
  | cons a l ih =>
      intro p n x hg hp hfalse
      cases n with
      | zero =>
          simp only [List.get?] at hg
          injection hg with hg
          subst hg
          rw [List.find?_cons_of_pos _ hp]
      | succ k =>
          have ha : p a = false := hfalse 0 a (by omega) rfl
          rw [List.find?_cons_of_neg _ (by simp [ha])]
          exact ih p k x hg hp
            (fun i y hi hgi => hfalse (i + 1) y (by omega) hgi)

theorem required_eq_chunkEnd {t : List Char} {w h : Nat} (hw : w ≠ 0)
    (hh : 1 ≤ h) (hcount : h ≤ count_wrapped_lines t w)
    {s e : Nat} (hse : (chunkIntervals t w).get? (h - 1) = some (s, e)) :
    end_of_wrapped_line t w (move_n_wrapped_lines_down t w 0 (h - 1)) + 1
      = e := by
  have hlen : (chunkIntervals t w).length = count_wrapped_lines t w :=
    ci_length t w
  have hpos : ∀ c ∈ chunkIntervals t w, c.1 < c.2 :=
    fun c hc => ciGo_mem_pos hw (splitlines t) 0 c hc
  have hchain : List.Chain' (fun a b => a.2 ≤ b.1) (chunkIntervals t w) :=
    ciGo_chain (splitlines t) 0
  have hsmem : (s, e) ∈ chunkIntervals t w := List.get?_mem hse
  have hslt : s < e := hpos (s, e) hsmem
  obtain ⟨c0, cs', hcs⟩ : ∃ c0 cs', chunkIntervals t w = c0 :: cs' := by
    cases hc : chunkIntervals t w with
    | nil => rw [hc] at hlen; simp at hlen; omega
    | cons c0 cs' => exact ⟨c0, cs', rfl⟩
  have hc0 : 0 < c0.2 := by
    have := hpos c0 (by rw [hcs]; exact List.mem_cons_self _ _)
    omega
  have hmove : move_n_wrapped_lines_down t w 0 (h - 1) = s := by
    simp only [move_n_wrapped_lines_down]
    have hfi : (chunkIntervals t w).findIdx (fun c => 0 < c.2) = 0 := by
      rw [hcs, List.findIdx_cons]
      simp [hc0]
    rw [hfi]
    rw [show min (0 + (h - 1)) ((chunkIntervals t w).length - 1) = h - 1
      from by rw [hlen]; omega]
    rw [hse]
  rw [hmove]
  have hend : end_of_wrapped_line t w s = e - 1 := by
    simp only [end_of_wrapped_line]
    have hfind : (chunkIntervals t w).find? (fun c => s < c.2)
        = some (s, e) := by
      apply find?_locate (chunkIntervals t w) _ (h - 1) (s, e) hse
        (by simpa using hslt)
      intro i y hi hgi
      obtain ⟨si, ei⟩ := y
      have := chain_get?_le hchain hpos (h - 1) i si ei s e hi hgi hse
      simpa using by omega
    rw [hfind]
  rw [hend]
  omega

/-- C6 (amended): for every document, positive width and height, and
offset with original text remaining after it, if the doubling loop
gathered a sample wrapping to at least `height` lines ("as long as enough
original text remains") and the construction completes — which is not
guaranteed: the post-condition assert
`len(origpos_to_viewpos) == required_length + 1` can fail under an
expanding concealment, see the counterexample — then `text_as_lines()` of
the constructed view has exactly `height` lines. -/
theorem C6_exact_height (doc : Doc) (w h off : Nat) (tv : TextView)
    (hoff : off < doc.text.length)
    (hok : for_screen doc w h off = some tv)
    (vt : List Char) (f b : List Nat) (sample : Nat)
    (hA : stageA doc w h off = some (vt, f, b, sample))
    (henough : h ≤ count_wrapped_lines vt w) :
    tv.text_as_lines.length = h := by
  unfold for_screen at hok
  split at hok
  · simp at hok
  · rename_i hg
    simp only [Bool.or_eq_true, decide_eq_true_eq, not_or] at hg
    obtain ⟨⟨hw, hh⟩, _⟩ := hg
    split at hok
    · simp at hok
    · rename_i t m1 m2 heq
      unfold computeTextFromViewInterval at heq
      rw [if_neg (show ¬(doc.text.length - off = 0) from by omega)] at heq
      split at heq
      · simp at heq
      · rename_i vt' f' b' sample' hA'
        rw [hA] at hA'
        injection hA' with hA'
        rw [Prod.mk.injEq, Prod.mk.injEq, Prod.mk.injEq] at hA'
        obtain ⟨hvt, hf, hb, hsample⟩ := hA'
        subst hvt
        dsimp only at heq
        split at heq
        · rename_i hreq
          simp only [Option.some_inj, Prod.mk.injEq] at heq
          obtain ⟨ht, hm1, hm2⟩ := heq
          -- the snapped text
          obtain ⟨s, e, hse⟩ : ∃ s e,
              (chunkIntervals vt w).get? (h - 1) = some (s, e) := by
            have hlt : h - 1 < (chunkIntervals vt w).length := by
              rw [ci_length]
              omega
            refine ⟨((chunkIntervals vt w).get ⟨h - 1, hlt⟩).1,
              ((chunkIntervals vt w).get ⟨h - 1, hlt⟩).2, ?_⟩
            rw [List.get?_eq_get hlt]
          have hreqeq := required_eq_chunkEnd hw (by omega) henough hse
          have hcnt := take_chunkEnd_count hw vt.length vt (le_refl _) h
            (by omega) henough s e hse
          -- extract tv.text and tv.width from the rest of hok
          cases h2 : computeSelection doc t m1 m2 off with
          | none => rw [h2] at hok; simp at hok
          | some selv =>
            rw [h2] at hok
            cases h3 : computeHighlighting doc t m2 with
            | none => rw [h3] at hok; simp at hok
            | some hl =>
              rw [h3] at hok
              simp only [Option.some_inj] at hok
              have htw : tv.width = w := by rw [← hok]
              have htt : tv.text = t := by rw [← hok]
              show (textAsLines tv.width tv.text).length = h
              rw [htw, htt, ← ht, hreqeq]
              exact hcnt
        · simp at heq

/-- Witness for C6 at the concrete document exDocPlain with width 2,
height 2, offset 0. -/
theorem C6_witness :
    (0 < exDocPlain.text.length) ∧
    ({ width := 2, height := 2, offset := 0, text := ['a', 'b', 'c', 'd'],
       selection := [(0, 1)], highlighting := [[], [], [], []],
       origpos_to_viewpos := [0, 1, 2, 3, 4],
       viewpos_to_origpos := [0, 1, 2, 3, 4, 4] } : TextView).text_as_lines.length = 2 :=
  ⟨by decide, C6_exact_height exDocPlain 2 2 0 _ (by decide) (by decide)
    ['a', 'b', 'c', 'd'] [0, 1, 2, 3, 4] [0, 1, 2, 3, 4] 4 (by decide) (by decide)⟩

/-- C6 counterexample: on document text `"abcd"` with the expanding
concealment `[2,3) -> "XYZ"`, width 1, height 4, offset 1, enough original
text remains (the doubling loop's sample `"bXYZ"` wraps to 4 lines, the
required height), yet `for_screen` does not return a view at all: the
snapped `required_length` is 4 while the original-indexed forward map has
only 3 entries, so the source's post-condition assert
`len(origpos_to_viewpos) == required_length + 1` (textview.py line 170)
fails. -/
theorem C6_cex :
    1 < exDocConceal.text.length
      ∧ stageA exDocConceal 1 4 1
          = some (['b', 'X', 'Y', 'Z'], [0, 1, 4], [1, 2, 2, 2, 2], 2)
      ∧ 4 ≤ count_wrapped_lines ['b', 'X', 'Y', 'Z'] 1
      ∧ for_screen exDocConceal 1 4 1 = none := by decide
